import Mathlib

/-!
Verification development for the alphabet-tutor repository.

The repository has two variants:
* a Qt application whose statistics core is the class handling profiles
  (creation, per-symbol statistics updates, difficulty ranking of letters
  and digits, JSON persistence) together with the letters/digits game
  screens (question construction and answer grading);
* a small CLI variant with a score file and an alphabet list.

The development below embeds that core shallowly: Python dicts become
association lists in insertion order, the random calls become oracle
parameters constrained by validity predicates, and the JSON file becomes a
string produced by a printer and consumed by a parser, both modelled after
the library serializer the code calls (indent 2, non-ASCII kept).
Success-rate comparisons are embedded by cross-multiplication, which is the
exact comparison of the quotients involved.
-/

/-- Per-symbol statistics record: number of correct answers and number of
attempts, as stored for every letter and digit of a profile. -/
structure Stat where
  correct : Nat
  attempts : Nat
deriving DecidableEq

/-- A statistics map, the embedding of the Python dict mapping a symbol to
its record; insertion order is kept, as Python dicts do. -/
abbrev Stats := List (Char × Stat)

/-- Key lookup in an association list (first matching key), the embedding of
dict indexing. -/
def lookupA {α β : Type} [DecidableEq α] (m : List (α × β)) (k : α) : Option β :=
  match m with
  | [] => none
  | p :: rest => if p.1 = k then some p.2 else lookupA rest k

/-- In-place value update at a key in an association list (first matching
key), the embedding of mutating one entry of a Python dict. -/
def updateA {α β : Type} [DecidableEq α] (m : List (α × β)) (k : α) (f : β → β) :
    List (α × β) :=
  match m with
  | [] => []
  | p :: rest => if p.1 = k then (p.1, f p.2) :: rest else p :: updateA rest k f

/-- The 26 uppercase letters used by the letters game. -/
def lettersList : List Char := "ABCDEFGHIJKLMNOPQRSTUVWXYZ".toList

/-- The 10 digit characters used by the digits game. -/
def digitsList : List Char := "0123456789".toList

/-- Zero-initialized statistics for a symbol alphabet, as built by profile
creation and by the legacy-profile repair path. -/
def zeroStats (alphabet : List Char) : Stats :=
  alphabet.map fun c => (c, { correct := 0, attempts := 0 })

/-- One user profile, the embedding of the per-user dict: creation
timestamp, letter statistics, digit statistics, and the four aggregate
totals.  The digit fields are optional because profiles written by an older
variant of the application may lack them. -/
structure UserProfile where
  created : String
  stats : Stats
  stats_numbers : Option Stats
  total_correct : Nat
  total_attempts : Nat
  total_correct_numbers : Option Nat
  total_attempts_numbers : Option Nat
deriving DecidableEq

/-- The users map of the persisted data, name to profile. -/
abbrev Users := List (String × UserProfile)

/-- The profile inserted by user creation: all letter and digit statistics
zero-initialized and all four aggregate totals zero. -/
def freshProfile (now : String) : UserProfile :=
  { created := now
    stats := zeroStats lettersList
    stats_numbers := some (zeroStats digitsList)
    total_correct := 0
    total_attempts := 0
    total_correct_numbers := some 0
    total_attempts_numbers := some 0 }

/-- User creation: refuse (returning false and leaving the map unchanged)
when the name is already present, otherwise insert a fresh profile and
return true. -/
def create_user (users : Users) (name : String) (now : String) : Bool × Users :=
  if name ∈ users.map Prod.fst then (false, users)
  else (true, users ++ [(name, freshProfile now)])

/-- Recording one letter answer: bump the attempt count of the letter and
the aggregate attempt total, and on a correct answer also bump the correct
count and the aggregate correct total.  Missing user or missing letter key
is the embedding of a KeyError. -/
def update_stats (users : Users) (name : String) (letter : Char) (correct : Bool) :
    Option Users :=
  match lookupA users name with
  | none => none
  | some u =>
    match lookupA u.stats letter with
    | none => none
    | some _ =>
      let u1 : UserProfile :=
        { u with stats := updateA u.stats letter fun s => { s with attempts := s.attempts + 1 }
                 total_attempts := u.total_attempts + 1 }
      let u2 : UserProfile :=
        if correct then
          { u1 with stats := updateA u1.stats letter fun s => { s with correct := s.correct + 1 }
                    total_correct := u1.total_correct + 1 }
        else u1
      some (updateA users name fun _ => u2)

/-- Recording one digit answer, the digit analogue of the letter update;
the digit statistics map and the digit attempt total must be present, and
the digit correct total is only read when the answer is correct, mirroring
the order of the dict accesses in the source. -/
def update_stats_numbers (users : Users) (name : String) (number : Char)
    (correct : Bool) : Option Users :=
  match lookupA users name with
  | none => none
  | some u =>
    match u.stats_numbers with
    | none => none
    | some m =>
      match lookupA m number with
      | none => none
      | some _ =>
        match u.total_attempts_numbers with
        | none => none
        | some ta =>
          let m1 := updateA m number fun s => { s with attempts := s.attempts + 1 }
          if correct then
            match u.total_correct_numbers with
            | none => none
            | some tc =>
              some (updateA users name fun _ =>
                { u with stats_numbers :=
                           some (updateA m1 number fun s => { s with correct := s.correct + 1 })
                         total_attempts_numbers := some (ta + 1)
                         total_correct_numbers := some (tc + 1) })
          else
            some (updateA users name fun _ =>
              { u with stats_numbers := some m1
                       total_attempts_numbers := some (ta + 1) })

/-- Comparison of two scored symbols, the embedding of the ascending sort by
the pair of success rate and negated attempt count: an entry carries
(symbol, correct, attempts) and rates are compared exactly by
cross-multiplication. -/
def scoreLe (x y : Char × Nat × Nat) : Prop :=
  x.2.1 * y.2.2 < y.2.1 * x.2.2 ∨
    (x.2.1 * y.2.2 = y.2.1 * x.2.2 ∧ y.2.2 ≤ x.2.2)

instance scoreLeDec : DecidableRel scoreLe := fun x y =>
  inferInstanceAs (Decidable (x.2.1 * y.2.2 < y.2.1 * x.2.2 ∨
    (x.2.1 * y.2.2 = y.2.1 * x.2.2 ∧ y.2.2 ≤ x.2.2)))

/-- The scored entries of a statistics map: symbols with at least one
attempt, each carrying its correct and attempt counts. -/
def letterScores (stats : Stats) : List (Char × Nat × Nat) :=
  stats.filterMap fun p =>
    if 0 < p.2.attempts then some (p.1, p.2.correct, p.2.attempts) else none

/-- The scored entries sorted ascending by (success rate, negated attempts),
with the stable sort the source's list sort performs. -/
def sortedScores (stats : Stats) : List (Char × Nat × Nat) :=
  List.insertionSort scoreLe (letterScores stats)

/-- The ranked symbols with attempts: first `count` entries of the sorted
scores. -/
def rankedTop (stats : Stats) (count : Nat) : List Char :=
  ((sortedScores stats).take count).map Prod.fst

/-- A sampling oracle standing for the library call that draws k distinct
elements of a pool in random order. -/
abbrev Sampler := List Char → Nat → List Char

/-- Difficulty ranking shared by the letters and digits variants: keep the
symbols with attempts, sort them ascending by (success rate, negated
attempts), take the first `count`, and when fewer than `count` remain,
extend with a random sample of the alphabet symbols not already chosen. -/
def rank_hardest (stats : Stats) (alphabet : List Char) (count : Nat)
    (sample : Sampler) : List Char :=
  let difficult := rankedTop stats count
  if difficult.length < count then
    let remaining := alphabet.filter fun l => decide (l ∉ difficult)
    difficult ++ sample remaining (min (count - difficult.length) remaining.length)
  else difficult

/-- The hardest letters of a profile, ranked over the 26-letter alphabet. -/
def get_difficult_letters (u : UserProfile) (count : Nat) (sample : Sampler) :
    List Char :=
  rank_hardest u.stats lettersList count sample

/-- The hardest digits of a profile.  A legacy profile lacking the digit
statistics first gets zero-initialized digit statistics and zero digit
totals installed; the repaired profile is returned with the ranking. -/
def get_difficult_numbers (u : UserProfile) (count : Nat) (sample : Sampler) :
    UserProfile × List Char :=
  let u2 : UserProfile :=
    match u.stats_numbers with
    | none =>
      { u with stats_numbers := some (zeroStats digitsList)
               total_correct_numbers := some 0
               total_attempts_numbers := some 0 }
    | some _ => u
  (u2, rank_hardest (u2.stats_numbers.getD []) digitsList count sample)

instance : IsTotal (Char × Nat × Nat) scoreLe where
  total x y := by
    rcases Nat.lt_trichotomy (x.2.1 * y.2.2) (y.2.1 * x.2.2) with h | h | h
    · exact Or.inl (Or.inl h)
    · rcases Nat.le_total y.2.2 x.2.2 with h2 | h2
      · exact Or.inl (Or.inr ⟨h, h2⟩)
      · exact Or.inr (Or.inr ⟨h.symm, h2⟩)
    · exact Or.inr (Or.inl h)

/-- Transitivity of the score comparison, stated over the raw counts; kept
as a definition of its proof because the order instances below need it. -/
def scoreLe_trans_aux (cx ax cy ay cz az : Nat)
    (hxy : cx * ay < cy * ax ∨ (cx * ay = cy * ax ∧ ay ≤ ax))
    (hyz : cy * az < cz * ay ∨ (cy * az = cz * ay ∧ az ≤ ay)) :
    cx * az < cz * ax ∨ (cx * az = cz * ax ∧ az ≤ ax) := by
  rcases hxy with hxy | ⟨hxy, haxy⟩ <;> rcases hyz with hyz | ⟨hyz, hayz⟩
  · -- strict, strict
    left
    have h1 : (cx * az) * (cy * ay) < (cz * ax) * (cy * ay) := by
      calc (cx * az) * (cy * ay) = (cx * ay) * (cy * az) := by ring
        _ < (cy * ax) * (cz * ay) :=
            mul_lt_mul'' hxy hyz (Nat.zero_le _) (Nat.zero_le _)
        _ = (cz * ax) * (cy * ay) := by ring
    exact Nat.lt_of_mul_lt_mul_right h1
  · -- strict, then equal rate with az ≤ ay
    rcases Nat.eq_zero_or_pos az with haz | haz
    · subst haz
      rcases Nat.eq_zero_or_pos (cz * ax) with hzx | hzx
      · right
        exact ⟨by omega, Nat.zero_le _⟩
      · left
        omega
    · left
      have h1 : (cx * az) * ay < (cz * ax) * ay := by
        calc (cx * az) * ay = (cx * ay) * az := by ring
          _ < (cy * ax) * az := mul_lt_mul_of_pos_right hxy haz
          _ = (cy * az) * ax := by ring
          _ = (cz * ay) * ax := by rw [hyz]
          _ = (cz * ax) * ay := by ring
      exact Nat.lt_of_mul_lt_mul_right h1
  · -- equal rate with ay ≤ ax, then strict
    have hay : 0 < ay := by
      rcases Nat.eq_zero_or_pos ay with h | h
      · subst h
        omega
      · exact h
    have hax : 0 < ax := Nat.lt_of_lt_of_le hay haxy
    left
    have h1 : (cx * az) * ay < (cz * ax) * ay := by
      calc (cx * az) * ay = (cx * ay) * az := by ring
        _ = (cy * ax) * az := by rw [hxy]
        _ = (cy * az) * ax := by ring
        _ < (cz * ay) * ax := mul_lt_mul_of_pos_right hyz hax
        _ = (cz * ax) * ay := by ring
    exact Nat.lt_of_mul_lt_mul_right h1
  · -- equal, equal
    rcases Nat.eq_zero_or_pos ay with hay | hay
    · have haz : az = 0 := by omega
      subst haz
      rcases Nat.eq_zero_or_pos (cz * ax) with hzx | hzx
      · right
        exact ⟨by omega, Nat.zero_le _⟩
      · left
        omega
    · right
      refine ⟨?_, Nat.le_trans hayz haxy⟩
      have h1 : (cx * az) * ay = (cz * ax) * ay := by
        calc (cx * az) * ay = (cx * ay) * az := by ring
          _ = (cy * ax) * az := by rw [hxy]
          _ = (cy * az) * ax := by ring
          _ = (cz * ay) * ax := by rw [hyz]
          _ = (cz * ax) * ay := by ring
      exact Nat.eq_of_mul_eq_mul_right hay h1

instance : IsTrans (Char × Nat × Nat) scoreLe where
  trans x y z hxy hyz :=
    scoreLe_trans_aux x.2.1 x.2.2 y.2.1 y.2.2 z.2.1 z.2.2 hxy hyz

/-- Validity of a sampling oracle: on a request of at most the pool size it
returns that many elements, all from the pool, and distinct whenever the
pool has no duplicates. -/
def ValidSample (sample : Sampler) : Prop :=
  ∀ pool k, k ≤ pool.length →
    (sample pool k).length = k ∧ (∀ x ∈ sample pool k, x ∈ pool) ∧
      (pool.Nodup → (sample pool k).Nodup)

/-- Validity of a choice oracle standing for drawing one element of a
nonempty list. -/
def ValidPick (pick : List Char → Char) : Prop :=
  ∀ l, l ≠ [] → pick l ∈ l

/-- Validity of a shuffle oracle standing for an in-place random shuffle. -/
def ValidShuffle (shuffle : List Char → List Char) : Prop :=
  ∀ l, (shuffle l).Perm l

/-- One multiple-choice question: the target symbol, the four displayed
choices after shuffling, and the stored index of the target. -/
structure Question where
  current : Char
  choices : List Char
  correct_answer : Nat
deriving DecidableEq

/-- Question construction for the letters game: with probability 0.6 the
target comes from the ten hardest letters, otherwise from the whole
alphabet; three wrong choices are sampled from the other letters, the four
choices are shuffled, and the target index is recorded. -/
def new_question_letters (u : UserProfile) (q : ℚ) (pick : List Char → Char)
    (sample : Sampler) (shuffle : List Char → List Char) : Question :=
  let current := if q < 3 / 5 then pick (get_difficult_letters u 10 sample)
                 else pick lettersList
  let rest := lettersList.erase current
  let wrong := sample rest 3
  let choices := shuffle (current :: wrong)
  { current := current, choices := choices, correct_answer := List.indexOf current choices }

/-- Question construction for the digits game: with probability 0.6 the
target comes from the five hardest digits (possibly repairing a legacy
profile, whose updated form is returned), otherwise it is a uniformly drawn
digit. -/
def new_question_numbers (u : UserProfile) (q : ℚ) (pick : List Char → Char)
    (n : Fin 10) (sample : Sampler) (shuffle : List Char → List Char) :
    UserProfile × Question :=
  if q < 3 / 5 then
    let r := get_difficult_numbers u 5 sample
    let current := pick r.2
    let rest := digitsList.erase current
    let wrong := sample rest 3
    let choices := shuffle (current :: wrong)
    (r.1, { current := current, choices := choices,
            correct_answer := List.indexOf current choices })
  else
    let current := Nat.digitChar n.val
    let rest := digitsList.erase current
    let wrong := sample rest 3
    let choices := shuffle (current :: wrong)
    (u, { current := current, choices := choices,
          correct_answer := List.indexOf current choices })

/-- The grading-relevant state of a game screen: the player, the data
store, the screen-active flag, whether the choice buttons accept clicks,
and the current question fields. -/
structure GameScreenState where
  username : String
  users : Users
  is_active : Bool
  buttons_enabled : Bool
  current_letter : Char
  choices : List Char
  correct_answer : Nat
deriving DecidableEq

/-- Answer grading: a call on an inactive screen returns with no change;
otherwise the answer is compared with the stored index, the statistics are
recorded, and all choice buttons are disabled. -/
def check_answer (st : GameScreenState) (choice_idx : Nat) : Option GameScreenState :=
  if st.is_active = false then some st
  else
    let correct := decide (choice_idx = st.correct_answer)
    match update_stats st.users st.username st.current_letter correct with
    | none => none
    | some users2 => some { st with users := users2, buttons_enabled := false }

/-- A click on a choice button: the widget toolkit delivers the click to
the grading handler only while the buttons are enabled; a click on a
disabled button does nothing. -/
def click_choice (st : GameScreenState) (choice_idx : Nat) : Option GameScreenState :=
  if st.buttons_enabled then check_answer st choice_idx else some st

/-- One round of the CLI variant's loop: a displayed letter and the typed
answer; a correct answer adds one point and appends the letter to the
alphabet list unless it is already there. -/
def play_round (st : Nat × List String) (r : String × String) : Nat × List String :=
  if r.2 = r.1 then
    (st.1 + 1, if r.2 ∈ st.2 then st.2 else st.2 ++ [r.2])
  else st

/-- A whole CLI session: the loaded score and alphabet list, then one round
per loop iteration; the result is what the program saves. -/
def play_session (init : Nat × List String) (rounds : List (String × String)) :
    Nat × List String :=
  rounds.foldl play_round init

/-- JSON values of the fragment the application persists: strings, integer
counts and objects with ordered fields. -/
inductive JVal where
  | str : String → JVal
  | num : Nat → JVal
  | obj : List (String × JVal) → JVal

/-- The quotation mark character. -/
def qmarkC : Char := Char.ofNat 34

/-- The backslash character. -/
def bslashC : Char := Char.ofNat 92

/-- The opening brace character. -/
def lbraceC : Char := Char.ofNat 123

/-- The closing brace character. -/
def rbraceC : Char := Char.ofNat 125

/-- The colon character. -/
def colonC : Char := Char.ofNat 58

/-- The comma character. -/
def commaC : Char := Char.ofNat 44

/-- The space character. -/
def spaceC : Char := Char.ofNat 32

/-- The newline character. -/
def nlC : Char := Char.ofNat 10

/-- Lowercase hexadecimal digit for a value below 16. -/
def hexDigitChar (n : Nat) : Char :=
  if n < 10 then Char.ofNat (48 + n) else Char.ofNat (87 + n)

/-- String-character escaping of the serializer with non-ASCII characters
kept: quote, backslash and the five short control escapes get a two-character
escape, the other control characters a four-hex-digit escape, everything
else stays itself. -/
def escapeChar (c : Char) : List Char :=
  if c = qmarkC then [bslashC, qmarkC]
  else if c = bslashC then [bslashC, bslashC]
  else if c = Char.ofNat 8 then [bslashC, 'b']
  else if c = Char.ofNat 9 then [bslashC, 't']
  else if c = Char.ofNat 10 then [bslashC, 'n']
  else if c = Char.ofNat 12 then [bslashC, 'f']
  else if c = Char.ofNat 13 then [bslashC, 'r']
  else if c.toNat < 32 then
    [bslashC, 'u', '0', '0', hexDigitChar (c.toNat / 16), hexDigitChar (c.toNat % 16)]
  else [c]

/-- A serialized JSON string: quote, escaped characters, quote. -/
def printString (s : String) : List Char :=
  qmarkC :: ((s.data.map escapeChar).flatten ++ [qmarkC])

/-- The character of one decimal digit value. -/
def digitC (n : Nat) : Char := Char.ofNat (48 + n)

/-- Decimal digits of a natural number, most significant first. -/
def natToDigits (n : Nat) : List Char :=
  if n < 10 then [digitC n] else natToDigits (n / 10) ++ [digitC (n % 10)]
decreasing_by exact Nat.div_lt_self (by omega) (by omega)

/-- Indentation of the pretty printer: two spaces per level. -/
def indentChars (lvl : Nat) : List Char := List.replicate (2 * lvl) spaceC

mutual

/-- Pretty printer of a JSON value at an indentation level, the embedding
of the serializer call with indent 2: an empty object prints as a brace
pair, a nonempty object opens a brace, prints its members one per line at
the next level, and closes the brace on its own indented line. -/
def printVal : Nat → JVal → List Char
  | _, .str s => printString s
  | _, .num n => natToDigits n
  | _, .obj [] => [lbraceC, rbraceC]
  | lvl, .obj (f :: fs) =>
    lbraceC :: nlC :: (printMembers (lvl + 1) f fs ++ (nlC :: (indentChars lvl ++ [rbraceC])))
termination_by _ v => sizeOf v

/-- Pretty printer of a nonempty member sequence: each member is the
indentation, the serialized key, a colon and a space, and the value; the
members are separated by a comma and a newline. -/
def printMembers : Nat → (String × JVal) → List (String × JVal) → List Char
  | lvl, (k, v), [] =>
    indentChars lvl ++ (printString k ++ (colonC :: spaceC :: printVal lvl v))
  | lvl, (k, v), f :: fs =>
    (indentChars lvl ++ (printString k ++ (colonC :: spaceC :: printVal lvl v))) ++
      (commaC :: nlC :: printMembers lvl f fs)
termination_by _ m fs => 1 + sizeOf m + sizeOf fs

end

/-- Whitespace test of the parser. -/
def isWsC (c : Char) : Bool :=
  c = spaceC || c = nlC || c = Char.ofNat 9 || c = Char.ofNat 13

/-- Skip leading whitespace. -/
def skipWs (cs : List Char) : List Char := cs.dropWhile isWsC

/-- Decimal digit test of the parser. -/
def isDigitC (c : Char) : Bool := 48 ≤ c.toNat && c.toNat ≤ 57

/-- Value of one hexadecimal digit character, either case. -/
def parseHex (c : Char) : Option Nat :=
  if 48 ≤ c.toNat ∧ c.toNat ≤ 57 then some (c.toNat - 48)
  else if 97 ≤ c.toNat ∧ c.toNat ≤ 102 then some (c.toNat - 87)
  else if 65 ≤ c.toNat ∧ c.toNat ≤ 70 then some (c.toNat - 55)
  else none

/-- Decoding of a two-character string escape. -/
def decodeEscape (e : Char) : Option Char :=
  if e = qmarkC then some qmarkC
  else if e = bslashC then some bslashC
  else if e = Char.ofNat 47 then some (Char.ofNat 47)
  else if e = 'b' then some (Char.ofNat 8)
  else if e = 't' then some (Char.ofNat 9)
  else if e = 'n' then some (Char.ofNat 10)
  else if e = 'f' then some (Char.ofNat 12)
  else if e = 'r' then some (Char.ofNat 13)
  else none

/-- Parse the body of a JSON string after its opening quote, returning the
decoded characters and the input after the closing quote; escapes are
decoded and raw control characters are refused, as the strict parser mode
the application uses does. -/
def parseStringBody : List Char → Option (List Char × List Char)
  | [] => none
  | c :: rest =>
    if c = qmarkC then some ([], rest)
    else if c = bslashC then
      match rest with
      | [] => none
      | e :: rest2 =>
        if e = 'u' then
          match rest2 with
          | h1 :: h2 :: h3 :: h4 :: rest3 =>
            match parseHex h1, parseHex h2, parseHex h3, parseHex h4 with
            | some a, some b, some c2, some d =>
              match parseStringBody rest3 with
              | some (chars, r) =>
                some (Char.ofNat (((a * 16 + b) * 16 + c2) * 16 + d) :: chars, r)
              | none => none
            | _, _, _, _ => none
          | _ => none
        else
          match decodeEscape e with
          | some d =>
            match parseStringBody rest2 with
            | some (chars, r) => some (d :: chars, r)
            | none => none
          | none => none
    else if c.toNat < 32 then none
    else
      match parseStringBody rest with
      | some (chars, r) => some (c :: chars, r)
      | none => none

/-- Accumulating decimal number parser: consume the maximal digit run. -/
def parseDigitsAcc : List Char → Nat → Nat × List Char
  | [], acc => (acc, [])
  | c :: rest, acc =>
    if isDigitC c then parseDigitsAcc rest (acc * 10 + (c.toNat - 48)) else (acc, c :: rest)

mutual

/-- Recursive-descent parser for one JSON value of the persisted fragment,
with a fuel bound on the nesting it will enter; whitespace is skipped
before every token. -/
def parseVal : Nat → List Char → Option (JVal × List Char)
  | 0, _ => none
  | fuel + 1, cs =>
    match skipWs cs with
    | [] => none
    | c :: rest =>
      if c = qmarkC then
        match parseStringBody rest with
        | some (chars, r) => some (.str (String.mk chars), r)
        | none => none
      else if c = lbraceC then
        match skipWs rest with
        | [] => none
        | c2 :: rest2 =>
          if c2 = rbraceC then some (.obj [], rest2)
          else
            match parseMembers fuel rest with
            | some (fields, r) => some (.obj fields, r)
            | none => none
      else if isDigitC c then
        let p := parseDigitsAcc rest (c.toNat - 48)
        some (.num p.1, p.2)
      else none

/-- Parser for a nonempty member sequence of an object, consuming the
closing brace. -/
def parseMembers : Nat → List Char → Option (List (String × JVal) × List Char)
  | 0, _ => none
  | fuel + 1, cs =>
    match skipWs cs with
    | [] => none
    | c :: rest =>
      if c = qmarkC then
        match parseStringBody rest with
        | none => none
        | some (key, rest2) =>
          match skipWs rest2 with
          | [] => none
          | c3 :: rest3 =>
            if c3 = colonC then
              match parseVal fuel rest3 with
              | none => none
              | some (v, rest4) =>
                match skipWs rest4 with
                | [] => none
                | c5 :: rest5 =>
                  if c5 = commaC then
                    match parseMembers fuel rest5 with
                    | some (fields, r) => some ((String.mk key, v) :: fields, r)
                    | none => none
                  else if c5 = rbraceC then some ([(String.mk key, v)], rest5)
                  else none
            else none
      else none

end

/-- Serialization of a JSON value to the file contents. -/
def json_dumps (v : JVal) : String := String.mk (printVal 0 v)

/-- Parsing of file contents, requiring the whole input to be one value
followed only by whitespace. -/
def json_loads (s : String) : Option JVal :=
  match parseVal (s.data.length + 1) s.data with
  | some (v, rest) => if skipWs rest = [] then some v else none
  | none => none

/-- Synchronous save: serialize the whole data tree to the file. -/
def save_data_sync (data : JVal) : String := json_dumps data

/-- Load: parse the file when it exists, otherwise start with an empty
users object. -/
def load_data (contents : Option String) : Option JVal :=
  match contents with
  | some s => json_loads s
  | none => some (.obj [("users", .obj [])])

/-- JSON shape of one symbol record. -/
def encodeStat (s : Stat) : JVal :=
  .obj [("correct", .num s.correct), ("attempts", .num s.attempts)]

/-- JSON shape of a statistics map. -/
def encodeStats (m : Stats) : JVal :=
  .obj (m.map fun p => (String.mk [p.1], encodeStat p.2))

/-- JSON shape of one profile, with the optional digit fields present
exactly when the profile has them. -/
def encodeUser (u : UserProfile) : JVal :=
  .obj ([("created", .str u.created), ("stats", encodeStats u.stats)] ++
    (match u.stats_numbers with
     | some m => [("stats_numbers", encodeStats m)]
     | none => []) ++
    [("total_correct", .num u.total_correct), ("total_attempts", .num u.total_attempts)] ++
    (match u.total_correct_numbers with
     | some n => [("total_correct_numbers", JVal.num n)]
     | none => []) ++
    (match u.total_attempts_numbers with
     | some n => [("total_attempts_numbers", JVal.num n)]
     | none => []))

/-- JSON shape of the whole persisted collection. -/
def encodeCollection (users : Users) : JVal :=
  .obj [("users", .obj (users.map fun p => (p.1, encodeUser p.2)))]

/-- A concrete deterministic sampler used to instantiate sampling
hypotheses: the first k elements of the pool. -/
def takeSampler : Sampler := fun pool k => pool.take k

/-- A concrete deterministic choice oracle: the head of the list. -/
def pickHead : List Char → Char := fun l => l.headD 'A'

/-- The identity permutation as a concrete shuffle. -/
def idShuffle : List Char → List Char := fun l => l

/-- Letter statistics of the scenario with letter B at one correct answer
out of ten attempts and every other letter unattempted. -/
def statsOneB : Stats :=
  lettersList.map fun c =>
    (c, if c = 'B' then { correct := 1, attempts := 10 } else { correct := 0, attempts := 0 })

/-- Profile carrying the statsOneB letter statistics. -/
def profileB : UserProfile := { freshProfile "t0" with stats := statsOneB }

/-- Letter statistics of the scenario with letters A and C at two correct
answers out of four attempts each and every other letter unattempted. -/
def statsAC : Stats :=
  lettersList.map fun c =>
    (c, if c = 'A' ∨ c = 'C' then { correct := 2, attempts := 4 }
        else { correct := 0, attempts := 0 })

/-- Profile carrying the statsAC letter statistics. -/
def profileAC : UserProfile := { freshProfile "t0" with stats := statsAC }

/-- A one-user store used by the concrete game-screen scenarios. -/
def demoUsers : Users := [("Lea", freshProfile "t0")]

/-- A concrete active game-screen state presenting letter A at index 0. -/
def st0 : GameScreenState :=
  { username := "Lea", users := demoUsers, is_active := true, buttons_enabled := true,
    current_letter := 'A', choices := "ABCD".toList, correct_answer := 0 }

/-- The profile of the demo store after one correct answer on letter A. -/
def profileAfterA : UserProfile :=
  { freshProfile "t0" with
    stats := lettersList.map fun c =>
      (c, if c = 'A' then { correct := 1, attempts := 1 } else { correct := 0, attempts := 0 })
    total_correct := 1
    total_attempts := 1 }

/-- The demo game-screen state after the first click on the correct
choice. -/
def stAfterA : GameScreenState :=
  { st0 with users := [("Lea", profileAfterA)], buttons_enabled := false }

/-- A concrete profile written by the older variant: no digit statistics
and no digit totals. -/
def legacyProfile : UserProfile :=
  { created := "t0", stats := zeroStats lettersList, stats_numbers := none,
    total_correct := 0, total_attempts := 0, total_correct_numbers := none,
    total_attempts_numbers := none }

/-! Helper lemmas about association lists. -/

theorem lookupA_updateA_self {α β : Type} [DecidableEq α] (m : List (α × β)) (k : α)
    (f : β → β) : lookupA (updateA m k f) k = (lookupA m k).map f := by
  induction m with
  | nil => simp [lookupA, updateA]
  | cons p rest ih =>
    by_cases h : p.1 = k
    · simp [lookupA, updateA, h]
    · simp [lookupA, updateA, h, ih]

theorem lookupA_updateA_ne {α β : Type} [DecidableEq α] (m : List (α × β)) (k k2 : α)
    (f : β → β) (h : k2 ≠ k) : lookupA (updateA m k f) k2 = lookupA m k2 := by
  induction m with
  | nil => simp [lookupA, updateA]
  | cons p rest ih =>
    by_cases hp : p.1 = k
    · have hk : ¬ k = k2 := fun hc => h hc.symm
      simp [lookupA, updateA, hp, hk]
    · by_cases hp2 : p.1 = k2
      · simp [lookupA, updateA, hp, hp2, h]
      · simp [lookupA, updateA, hp, hp2, ih]

theorem lookupA_mem {α β : Type} [DecidableEq α] {m : List (α × β)} {k : α} {v : β}
    (h : lookupA m k = some v) : (k, v) ∈ m := by
  induction m with
  | nil => simp [lookupA] at h
  | cons p rest ih =>
    by_cases hp : p.1 = k
    · simp only [lookupA, hp, if_pos] at h
      have : p = (k, v) := by
        obtain ⟨a, b⟩ := p
        simp at hp
        simp at h
        simp [hp, h]
      simp [this]
    · simp only [lookupA, hp, if_neg, if_false] at h
      exact List.mem_cons_of_mem _ (ih h)

theorem lookupA_eq_none_of_not_mem {α β : Type} [DecidableEq α] {m : List (α × β)}
    {k : α} (h : k ∉ m.map Prod.fst) : lookupA m k = none := by
  induction m with
  | nil => simp [lookupA]
  | cons p rest ih =>
    simp only [List.map_cons, List.mem_cons] at h
    push_neg at h
    have hp : ¬ p.1 = k := fun hc => h.1 hc.symm
    simp [lookupA, hp, ih h.2]

theorem lookupA_append {α β : Type} [DecidableEq α] (m l : List (α × β)) (k : α) :
    lookupA (m ++ l) k =
      match lookupA m k with
      | some v => some v
      | none => lookupA l k := by
  induction m with
  | nil => simp [lookupA]
  | cons p rest ih =>
    by_cases hp : p.1 = k
    · simp [lookupA, hp]
    · simp [lookupA, hp, ih]

theorem lookupA_zeroStats {l : List Char} {c : Char} (h : c ∈ l) :
    lookupA (zeroStats l) c = some { correct := 0, attempts := 0 } := by
  induction l with
  | nil => simp at h
  | cons a rest ih =>
    by_cases ha : a = c
    · simp [zeroStats, lookupA, ha]
    · rcases List.mem_cons.mp h with h1 | h1
      · exact absurd h1.symm ha
      · simp only [zeroStats, List.map_cons, lookupA, ha, if_false]
        exact ih h1

/-- Claim C4: recording one answer on an existing user and symbol bumps the
symbol's attempt count by one and its correct count by the correctness bit,
moves the category aggregate totals by the same amounts, and leaves every
other symbol, the other category's fields, and every other user unchanged;
for letters and for digits alike. -/
theorem update_stats_increments :
    (∀ (users : Users) (name : String) (letter : Char) (correct : Bool)
        (u : UserProfile) (s : Stat),
        lookupA users name = some u →
        lookupA u.stats letter = some s →
        (((update_stats users name letter correct).bind fun l => lookupA l name).bind
            fun u2 => lookupA u2.stats letter) =
          some { correct := s.correct + (if correct then 1 else 0),
                 attempts := s.attempts + 1 } ∧
        (((update_stats users name letter correct).bind fun l => lookupA l name).map
            fun u2 => u2.total_attempts) = some (u.total_attempts + 1) ∧
        (((update_stats users name letter correct).bind fun l => lookupA l name).map
            fun u2 => u2.total_correct) =
          some (u.total_correct + (if correct then 1 else 0)) ∧
        (∀ c : Char, c ≠ letter →
          (((update_stats users name letter correct).bind fun l => lookupA l name).bind
              fun u2 => lookupA u2.stats c) = lookupA u.stats c) ∧
        (((update_stats users name letter correct).bind fun l => lookupA l name).map
            fun u2 => (u2.stats_numbers, u2.total_correct_numbers, u2.total_attempts_numbers)) =
          some (u.stats_numbers, u.total_correct_numbers, u.total_attempts_numbers) ∧
        (∀ n2 : String, n2 ≠ name →
          ((update_stats users name letter correct).bind fun l => lookupA l n2) =
            lookupA users n2)) ∧
    (∀ (users : Users) (name : String) (number : Char) (correct : Bool)
        (u : UserProfile) (m : Stats) (s : Stat) (ta tc : Nat),
        lookupA users name = some u →
        u.stats_numbers = some m →
        lookupA m number = some s →
        u.total_attempts_numbers = some ta →
        u.total_correct_numbers = some tc →
        (((update_stats_numbers users name number correct).bind fun l => lookupA l name).bind
            fun u2 => u2.stats_numbers.bind fun m2 => lookupA m2 number) =
          some { correct := s.correct + (if correct then 1 else 0),
                 attempts := s.attempts + 1 } ∧
        (((update_stats_numbers users name number correct).bind fun l => lookupA l name).bind
            fun u2 => u2.total_attempts_numbers) = some (ta + 1) ∧
        (((update_stats_numbers users name number correct).bind fun l => lookupA l name).bind
            fun u2 => u2.total_correct_numbers) =
          some (tc + (if correct then 1 else 0)) ∧
        (∀ c : Char, c ≠ number →
          (((update_stats_numbers users name number correct).bind fun l => lookupA l name).bind
              fun u2 => u2.stats_numbers.bind fun m2 => lookupA m2 c) = lookupA m c) ∧
        (((update_stats_numbers users name number correct).bind fun l => lookupA l name).map
            fun u2 => (u2.stats, u2.total_correct, u2.total_attempts)) =
          some (u.stats, u.total_correct, u.total_attempts) ∧
        (∀ n2 : String, n2 ≠ name →
          ((update_stats_numbers users name number correct).bind fun l => lookupA l n2) =
            lookupA users n2)) := by
  constructor
  · intro users name letter correct u s h1 h2
    cases correct
    · have hstep : update_stats users name letter false =
          some (updateA users name fun _ =>
            { u with stats := updateA u.stats letter fun t => { t with attempts := t.attempts + 1 }
                     total_attempts := u.total_attempts + 1 }) := by
        simp [update_stats, h1, h2]
      refine ⟨?_, ?_, ?_, ?_, ?_, ?_⟩
      · rw [hstep]
        simp only [Option.some_bind, lookupA_updateA_self, h1, Option.map_some',
          Option.some_bind]
        rw [h2]
        simp
      · rw [hstep]
        simp [lookupA_updateA_self, h1]
      · rw [hstep]
        simp [lookupA_updateA_self, h1]
      · intro c hc
        rw [hstep]
        simp only [Option.some_bind, lookupA_updateA_self, h1, Option.map_some',
          Option.some_bind]
        simp [lookupA_updateA_ne _ _ _ _ hc]
      · rw [hstep]
        simp [lookupA_updateA_self, h1]
      · intro n2 hn2
        rw [hstep]
        simp [lookupA_updateA_ne _ _ _ _ hn2]
    · have hstep : update_stats users name letter true =
          some (updateA users name fun _ =>
            { u with stats := updateA
                       (updateA u.stats letter fun t => { t with attempts := t.attempts + 1 })
                       letter fun t => { t with correct := t.correct + 1 }
                     total_attempts := u.total_attempts + 1
                     total_correct := u.total_correct + 1 }) := by
        simp [update_stats, h1, h2]
      refine ⟨?_, ?_, ?_, ?_, ?_, ?_⟩
      · rw [hstep]
        simp only [Option.some_bind, lookupA_updateA_self, h1, Option.map_some',
          Option.some_bind]
        rw [h2]
        simp
      · rw [hstep]
        simp [lookupA_updateA_self, h1]
      · rw [hstep]
        simp [lookupA_updateA_self, h1]
      · intro c hc
        rw [hstep]
        simp only [Option.some_bind, lookupA_updateA_self, h1, Option.map_some',
          Option.some_bind]
        simp [lookupA_updateA_ne _ _ _ _ hc]
      · rw [hstep]
        simp [lookupA_updateA_self, h1]
      · intro n2 hn2
        rw [hstep]
        simp [lookupA_updateA_ne _ _ _ _ hn2]
  · intro users name number correct u m s ta tc h1 h2 h3 h4 h5
    cases correct
    · have hstep : update_stats_numbers users name number false =
          some (updateA users name fun _ =>
            { u with stats_numbers :=
                       some (updateA m number fun t => { t with attempts := t.attempts + 1 })
                     total_attempts_numbers := some (ta + 1) }) := by
        simp [update_stats_numbers, h1, h2, h3, h4]
      refine ⟨?_, ?_, ?_, ?_, ?_, ?_⟩
      · rw [hstep]
        simp only [Option.some_bind, lookupA_updateA_self, h1, Option.map_some',
          Option.some_bind]
        rw [h3]
        simp
      · rw [hstep]
        simp [lookupA_updateA_self, h1]
      · rw [hstep]
        simp [lookupA_updateA_self, h1, h5]
      · intro c hc
        rw [hstep]
        simp only [Option.some_bind, lookupA_updateA_self, h1, Option.map_some',
          Option.some_bind]
        simp [lookupA_updateA_ne _ _ _ _ hc]
      · rw [hstep]
        simp [lookupA_updateA_self, h1]
      · intro n2 hn2
        rw [hstep]
        simp [lookupA_updateA_ne _ _ _ _ hn2]
    · have hstep : update_stats_numbers users name number true =
          some (updateA users name fun _ =>
            { u with stats_numbers :=
                       some (updateA
                         (updateA m number fun t => { t with attempts := t.attempts + 1 })
                         number fun t => { t with correct := t.correct + 1 })
                     total_attempts_numbers := some (ta + 1)
                     total_correct_numbers := some (tc + 1) }) := by
        simp [update_stats_numbers, h1, h2, h3, h4, h5]
      refine ⟨?_, ?_, ?_, ?_, ?_, ?_⟩
      · rw [hstep]
        simp only [Option.some_bind, lookupA_updateA_self, h1, Option.map_some',
          Option.some_bind]
        rw [h3]
        simp
      · rw [hstep]
        simp [lookupA_updateA_self, h1]
      · rw [hstep]
        simp [lookupA_updateA_self, h1]
      · intro c hc
        rw [hstep]
        simp only [Option.some_bind, lookupA_updateA_self, h1, Option.map_some',
          Option.some_bind]
        simp [lookupA_updateA_ne _ _ _ _ hc]
      · rw [hstep]
        simp [lookupA_updateA_self, h1]
      · intro n2 hn2
        rw [hstep]
        simp [lookupA_updateA_ne _ _ _ _ hn2]

/-- Witness for the update theorem: the fresh-profile scenario.  One correct
answer on letter A of a fresh profile gives that letter one correct answer
out of one attempt, moves the letter totals to one of one, leaves letter B
at zero, and leaves the digit fields untouched; one wrong answer on digit 3
bumps only the digit attempt counts. -/
theorem update_stats_increments_witness :
    ((((update_stats demoUsers "Lea" 'A' true).bind fun l => lookupA l "Lea").bind
        fun u2 => lookupA u2.stats 'A') = some { correct := 1, attempts := 1 }) ∧
    ((((update_stats demoUsers "Lea" 'A' true).bind fun l => lookupA l "Lea").map
        fun u2 => u2.total_attempts) = some 1) ∧
    ((((update_stats demoUsers "Lea" 'A' true).bind fun l => lookupA l "Lea").map
        fun u2 => u2.total_correct) = some 1) ∧
    ((((update_stats demoUsers "Lea" 'A' true).bind fun l => lookupA l "Lea").bind
        fun u2 => lookupA u2.stats 'B') = some { correct := 0, attempts := 0 }) ∧
    ((((update_stats demoUsers "Lea" 'A' true).bind fun l => lookupA l "Lea").map
        fun u2 => (u2.stats_numbers, u2.total_correct_numbers, u2.total_attempts_numbers)) =
      some ((freshProfile "t0").stats_numbers, (freshProfile "t0").total_correct_numbers,
        (freshProfile "t0").total_attempts_numbers)) ∧
    ((((update_stats_numbers demoUsers "Lea" '3' false).bind fun l => lookupA l "Lea").bind
        fun u2 => u2.stats_numbers.bind fun m2 => lookupA m2 '3') =
      some { correct := 0, attempts := 1 }) ∧
    ((((update_stats_numbers demoUsers "Lea" '3' false).bind fun l => lookupA l "Lea").bind
        fun u2 => u2.total_attempts_numbers) = some 1) ∧
    ((((update_stats_numbers demoUsers "Lea" '3' false).bind fun l => lookupA l "Lea").bind
        fun u2 => u2.total_correct_numbers) = some 0) := by
  have h := update_stats_increments.1 demoUsers "Lea" 'A' true (freshProfile "t0")
    { correct := 0, attempts := 0 } (by decide) (by decide)
  have h2 := update_stats_increments.2 demoUsers "Lea" '3' false (freshProfile "t0")
    (zeroStats digitsList) { correct := 0, attempts := 0 } 0 0 (by decide) rfl (by decide)
    rfl rfl
  exact ⟨h.1, h.2.1, h.2.2.1,
    (h.2.2.2.1 'B' (by decide)).trans (by decide),
    h.2.2.2.2.1,
    h2.1, h2.2.1, h2.2.2.1⟩

/-- Claim C7: creating a profile under an existing name returns false and
changes nothing, creating it under a new name returns true, stores a fresh
profile reachable under that name without touching any other name, and the
fresh profile has all 26 letter records and all 10 digit records zeroed and
all four aggregate totals zero. -/
theorem create_user_spec (users : Users) (name now : String) :
    (name ∈ users.map Prod.fst →
      create_user users name now = (false, users)) ∧
    (name ∉ users.map Prod.fst →
      (create_user users name now).1 = true ∧
      lookupA (create_user users name now).2 name = some (freshProfile now) ∧
      (∀ n2 : String, n2 ≠ name →
        lookupA (create_user users name now).2 n2 = lookupA users n2)) ∧
    (∀ c : Char, c ∈ lettersList →
      lookupA (freshProfile now).stats c = some { correct := 0, attempts := 0 }) ∧
    (∀ c : Char, c ∈ digitsList →
      lookupA ((freshProfile now).stats_numbers.getD []) c =
        some { correct := 0, attempts := 0 }) ∧
    (freshProfile now).total_correct = 0 ∧
    (freshProfile now).total_attempts = 0 ∧
    (freshProfile now).total_correct_numbers = some 0 ∧
    (freshProfile now).total_attempts_numbers = some 0 := by
  refine ⟨?_, ?_, ?_, ?_, rfl, rfl, rfl, rfl⟩
  · intro h
    simp [create_user, h]
  · intro h
    have hnone : lookupA users name = none := lookupA_eq_none_of_not_mem h
    refine ⟨by simp [create_user, h], ?_, ?_⟩
    · simp only [create_user, h, if_neg, if_false]
      rw [lookupA_append, hnone]
      simp [lookupA]
    · intro n2 hn2
      simp only [create_user, h, if_neg, if_false]
      rw [lookupA_append]
      cases hcase : lookupA users n2 with
      | none => simp [lookupA, Ne.symm hn2]
      | some v => simp
  · intro c hc
    exact lookupA_zeroStats hc
  · intro c hc
    exact lookupA_zeroStats hc

/-- Witness for the creation theorem: creating Lea again fails and keeps
the store, creating Bob succeeds, Bob gets a fresh profile, Lea's entry is
untouched, and the fresh profile is zeroed at letter A and digit 0. -/
theorem create_user_spec_witness :
    create_user demoUsers "Lea" "t1" = (false, demoUsers) ∧
    (create_user demoUsers "Bob" "t1").1 = true ∧
    lookupA (create_user demoUsers "Bob" "t1").2 "Bob" = some (freshProfile "t1") ∧
    lookupA (create_user demoUsers "Bob" "t1").2 "Lea" = lookupA demoUsers "Lea" ∧
    lookupA (freshProfile "t1").stats 'A' = some { correct := 0, attempts := 0 } ∧
    lookupA ((freshProfile "t1").stats_numbers.getD []) '0' =
      some { correct := 0, attempts := 0 } := by
  have h := create_user_spec demoUsers "Lea" "t1"
  have h2 := create_user_spec demoUsers "Bob" "t1"
  have hb : "Bob" ∉ demoUsers.map Prod.fst := by decide
  exact ⟨h.1 (by decide), (h2.2.1 hb).1, (h2.2.1 hb).2.1,
    (h2.2.1 hb).2.2 "Lea" (by decide), h.2.2.1 'A' (by decide), h.2.2.2.1 '0' (by decide)⟩

/-! Helper lemmas about the difficulty ranking. -/

theorem mem_letterScores_iff {stats : Stats} {ch : Char} {cnt att : Nat} :
    (ch, cnt, att) ∈ letterScores stats ↔
      ∃ s : Stat, (ch, s) ∈ stats ∧ 0 < s.attempts ∧ cnt = s.correct ∧ att = s.attempts := by
  rw [letterScores, List.mem_filterMap]
  constructor
  · rintro ⟨p, hp, heq⟩
    rw [Option.ite_none_right_eq_some] at heq
    obtain ⟨hpos, heq⟩ := heq
    obtain ⟨a, s⟩ := p
    simp only [Prod.mk.injEq] at heq
    obtain ⟨rfl, rfl, rfl⟩ := heq
    exact ⟨s, hp, hpos, rfl, rfl⟩
  · rintro ⟨s, hs, hpos, rfl, rfl⟩
    exact ⟨(ch, s), hs, by simp [hpos]⟩

theorem mem_sortedScores_iff {stats : Stats} {ch : Char} {cnt att : Nat} :
    (ch, cnt, att) ∈ sortedScores stats ↔
      ∃ s : Stat, (ch, s) ∈ stats ∧ 0 < s.attempts ∧ cnt = s.correct ∧ att = s.attempts := by
  rw [sortedScores]
  rw [(List.perm_insertionSort scoreLe (letterScores stats)).mem_iff]
  exact mem_letterScores_iff

theorem mem_sortedScores_attempts_pos {stats : Stats} {x : Char × Nat × Nat}
    (h : x ∈ sortedScores stats) : 0 < x.2.2 := by
  obtain ⟨ch, cnt, att⟩ := x
  obtain ⟨s, _, hpos, _, hatt⟩ := mem_sortedScores_iff.mp h
  simpa [hatt] using hpos

theorem scoreLe_iff_rate {x y : Char × Nat × Nat} (hx : 0 < x.2.2) (hy : 0 < y.2.2) :
    scoreLe x y ↔
      ((x.2.1 : ℚ) / (x.2.2 : ℚ) < (y.2.1 : ℚ) / (y.2.2 : ℚ) ∨
        ((x.2.1 : ℚ) / (x.2.2 : ℚ) = (y.2.1 : ℚ) / (y.2.2 : ℚ) ∧ y.2.2 ≤ x.2.2)) := by
  have hx2 : (0 : ℚ) < (x.2.2 : ℚ) := by exact_mod_cast hx
  have hy2 : (0 : ℚ) < (y.2.2 : ℚ) := by exact_mod_cast hy
  rw [scoreLe, div_lt_div_iff₀ hx2 hy2, div_eq_div_iff hx2.ne' hy2.ne']
  constructor
  · rintro (h | ⟨h, h2⟩)
    · exact Or.inl (by exact_mod_cast h)
    · exact Or.inr ⟨by exact_mod_cast h, h2⟩
  · rintro (h | ⟨h, h2⟩)
    · exact Or.inl (by exact_mod_cast h)
    · exact Or.inr ⟨by exact_mod_cast h, h2⟩

theorem map_fst_letterScores_sublist (stats : Stats) :
    ((letterScores stats).map Prod.fst).Sublist (stats.map Prod.fst) := by
  induction stats with
  | nil => simp [letterScores]
  | cons p rest ih =>
    by_cases hpos : 0 < p.2.attempts
    · simp only [letterScores, List.filterMap_cons, hpos, if_pos, List.map_cons]
      exact List.Sublist.cons₂ p.1 ih
    · simp only [letterScores, List.filterMap_cons, hpos, if_neg, if_false, List.map_cons]
      exact List.Sublist.cons p.1 ih

theorem sortedScores_keys_nodup {stats : Stats} (h : (stats.map Prod.fst).Nodup) :
    ((sortedScores stats).map Prod.fst).Nodup := by
  have hperm : ((sortedScores stats).map Prod.fst).Perm ((letterScores stats).map Prod.fst) :=
    (List.perm_insertionSort scoreLe (letterScores stats)).map Prod.fst
  exact hperm.nodup_iff.mpr (List.Nodup.sublist (map_fst_letterScores_sublist stats) h)

theorem rankedTop_sublist_keys (stats : Stats) (count : Nat) :
    (rankedTop stats count).Sublist ((sortedScores stats).map Prod.fst) := by
  rw [rankedTop]
  exact List.Sublist.map Prod.fst (List.take_sublist count (sortedScores stats))

theorem rankedTop_nodup {stats : Stats} (count : Nat) (h : (stats.map Prod.fst).Nodup) :
    (rankedTop stats count).Nodup :=
  List.Nodup.sublist (rankedTop_sublist_keys stats count) (sortedScores_keys_nodup h)

theorem take_sortedScores_of_short {stats : Stats} {count : Nat}
    (h : (rankedTop stats count).length < count) :
    (sortedScores stats).take count = sortedScores stats := by
  have hlen : (rankedTop stats count).length = min count (sortedScores stats).length := by
    simp [rankedTop]
  apply List.take_of_length_le
  omega

theorem mem_rankedTop_of_attempted {stats : Stats} {count : Nat} {c : Char} {s : Stat}
    (hshort : (rankedTop stats count).length < count)
    (hl : lookupA stats c = some s) (hpos : 0 < s.attempts) :
    c ∈ rankedTop stats count := by
  have hmem : (c, s.correct, s.attempts) ∈ sortedScores stats :=
    mem_sortedScores_iff.mpr ⟨s, lookupA_mem hl, hpos, rfl, rfl⟩
  rw [rankedTop, take_sortedScores_of_short hshort]
  exact List.mem_map.mpr ⟨(c, s.correct, s.attempts), hmem, rfl⟩

/-- Claim C1: the ranking considers exactly the symbols with at least one
attempt; it orders them ascending by exact success rate and, among equal
rates, ranks the symbol with more attempts first; the head of the ranking
result is the first count entries of that order; and on the profile whose
only attempted letter is B at one correct answer out of ten, asking for one
hardest letter yields exactly B. -/
theorem rank_hardest_orders_by_difficulty :
    (∀ (stats : Stats) (ch : Char) (cnt att : Nat),
      (ch, cnt, att) ∈ sortedScores stats ↔
        ∃ s : Stat, (ch, s) ∈ stats ∧ 0 < s.attempts ∧ cnt = s.correct ∧ att = s.attempts) ∧
    (∀ stats : Stats, (sortedScores stats).Sorted scoreLe) ∧
    (∀ stats : Stats, (sortedScores stats).Sorted fun x y =>
      (x.2.1 : ℚ) / (x.2.2 : ℚ) < (y.2.1 : ℚ) / (y.2.2 : ℚ) ∨
        ((x.2.1 : ℚ) / (x.2.2 : ℚ) = (y.2.1 : ℚ) / (y.2.2 : ℚ) ∧ y.2.2 ≤ x.2.2)) ∧
    (∀ (stats : Stats) (alphabet : List Char) (count : Nat) (sample : Sampler),
      (rank_hardest stats alphabet count sample).take (rankedTop stats count).length =
        rankedTop stats count) ∧
    (∀ sample : Sampler, get_difficult_letters profileB 1 sample = ['B']) := by
  refine ⟨?_, ?_, ?_, ?_, ?_⟩
  · intro stats ch cnt att
    exact mem_sortedScores_iff
  · intro stats
    exact List.sorted_insertionSort scoreLe (letterScores stats)
  · intro stats
    have hs := List.sorted_insertionSort scoreLe (letterScores stats)
    exact List.Pairwise.imp_of_mem
      (fun ha hb hab =>
        (scoreLe_iff_rate (mem_sortedScores_attempts_pos ha)
          (mem_sortedScores_attempts_pos hb)).mp hab) hs
  · intro stats alphabet count sample
    rw [rank_hardest]
    by_cases h : (rankedTop stats count).length < count
    · simp only [h, if_pos]
      exact List.take_left (rankedTop stats count) _
    · simp only [h, if_neg, if_false]
      exact List.take_length (rankedTop stats count)
  · intro sample
    rfl

/-- Claim C2: under a valid sampler and duplicate-free keys, the ranking
result has no duplicate symbols and at most count entries; it is the ranked
head followed by a backfill drawn only from alphabet symbols that are
absent from the ranked head and have no recorded attempt, so a zero-attempt
symbol never precedes an attempted one; and on the profile with letters A
and C at two of four attempts each and everything else unattempted, asking
for two hardest letters yields exactly A and C. -/
theorem rank_hardest_no_duplicates :
    (∀ (stats : Stats) (alphabet : List Char) (count : Nat) (sample : Sampler),
      ValidSample sample → (stats.map Prod.fst).Nodup → alphabet.Nodup →
      (rank_hardest stats alphabet count sample).Nodup ∧
      (rank_hardest stats alphabet count sample).length ≤ count ∧
      ∃ backfill : List Char,
        rank_hardest stats alphabet count sample = rankedTop stats count ++ backfill ∧
        ∀ c ∈ backfill, c ∈ alphabet ∧ c ∉ rankedTop stats count ∧
          ∀ s : Stat, lookupA stats c = some s → s.attempts = 0) ∧
    (∀ sample : Sampler, get_difficult_letters profileAC 2 sample = ['A', 'C']) := by
  constructor
  · intro stats alphabet count sample hsample hkeys halpha
    by_cases h : (rankedTop stats count).length < count
    · have hbranch : rank_hardest stats alphabet count sample =
          rankedTop stats count ++
            sample (alphabet.filter fun l => decide (l ∉ rankedTop stats count))
              (min (count - (rankedTop stats count).length)
                (alphabet.filter fun l => decide (l ∉ rankedTop stats count)).length) := by
        rw [rank_hardest]
        simp only [h, if_pos]
      have hk : min (count - (rankedTop stats count).length)
            (alphabet.filter fun l => decide (l ∉ rankedTop stats count)).length ≤
          (alphabet.filter fun l => decide (l ∉ rankedTop stats count)).length :=
        Nat.min_le_right _ _
      obtain ⟨hlen, hmem, hnd⟩ := hsample _ _ hk
      have hpoolnd : (alphabet.filter fun l => decide (l ∉ rankedTop stats count)).Nodup :=
        halpha.filter _
      have hbfnd := hnd hpoolnd
      have hbfpool : ∀ c ∈ sample (alphabet.filter fun l => decide (l ∉ rankedTop stats count))
          (min (count - (rankedTop stats count).length)
            (alphabet.filter fun l => decide (l ∉ rankedTop stats count)).length),
          c ∈ alphabet ∧ c ∉ rankedTop stats count := by
        intro c hc
        have hthis := hmem c hc
        rw [List.mem_filter] at hthis
        exact ⟨hthis.1, of_decide_eq_true hthis.2⟩
      refine ⟨?_, ?_, ?_⟩
      · rw [hbranch]
        rw [List.nodup_append]
        refine ⟨rankedTop_nodup count hkeys, hbfnd, ?_⟩
        intro c hc hc2
        exact (hbfpool c hc2).2 hc
      · rw [hbranch, List.length_append, hlen]
        omega
      · refine ⟨_, hbranch, ?_⟩
        intro c hc
        obtain ⟨hca, hcr⟩ := hbfpool c hc
        refine ⟨hca, hcr, ?_⟩
        intro s hs
        by_contra hcon
        exact hcr (mem_rankedTop_of_attempted h hs (Nat.pos_of_ne_zero hcon))
    · have hbranch : rank_hardest stats alphabet count sample = rankedTop stats count := by
        rw [rank_hardest]
        simp only [h, if_neg, if_false]
      refine ⟨?_, ?_, ?_⟩
      · rw [hbranch]
        exact rankedTop_nodup count hkeys
      · rw [hbranch]
        have hlen2 : (rankedTop stats count).length = min count (sortedScores stats).length := by
          simp [rankedTop]
        omega
      · refine ⟨[], by simp [hbranch], by simp⟩
  · intro sample
    rfl

/-- Witness for the duplicate-freedom theorem: with the prefix sampler on
the A-and-C profile over the alphabet and count four, the ranking is
duplicate-free, short enough, and splits into the attempted head A, C and a
zero-attempt backfill. -/
theorem rank_hardest_no_duplicates_witness :
    (rank_hardest statsAC lettersList 4 takeSampler).Nodup ∧
    (rank_hardest statsAC lettersList 4 takeSampler).length ≤ 4 ∧
    ∃ backfill : List Char,
      rank_hardest statsAC lettersList 4 takeSampler = rankedTop statsAC 4 ++ backfill ∧
      ∀ c ∈ backfill, c ∈ lettersList ∧ c ∉ rankedTop statsAC 4 ∧
        ∀ s : Stat, lookupA statsAC c = some s → s.attempts = 0 := by
  have hvalid : ValidSample takeSampler := by
    intro pool k hk
    refine ⟨by rw [takeSampler, List.length_take]; exact Nat.min_eq_left hk, ?_, ?_⟩
    · intro x hx
      exact List.mem_of_mem_take hx
    · intro hnd
      exact List.Nodup.sublist (List.take_sublist k pool) hnd
  exact rank_hardest_no_duplicates.1 statsAC lettersList 4 takeSampler hvalid
    (by decide) (by decide)

/-! Helper lemmas about question construction. -/

theorem validSample_takeSampler : ValidSample takeSampler := by
  intro pool k hk
  refine ⟨by rw [takeSampler, List.length_take]; exact Nat.min_eq_left hk, ?_, ?_⟩
  · intro x hx
    exact List.mem_of_mem_take hx
  · intro hnd
    exact List.Nodup.sublist (List.take_sublist k pool) hnd

theorem validPick_pickHead : ValidPick pickHead := by
  intro l hl
  cases l with
  | nil => exact absurd rfl hl
  | cons a rest => exact List.mem_cons_self a rest

theorem validShuffle_idShuffle : ValidShuffle idShuffle := fun l => List.Perm.refl l

theorem mem_rankedTop_keys {stats : Stats} {count : Nat} {c : Char}
    (h : c ∈ rankedTop stats count) : c ∈ stats.map Prod.fst := by
  have h1 : c ∈ (sortedScores stats).map Prod.fst :=
    (rankedTop_sublist_keys stats count).subset h
  have h2 : c ∈ (letterScores stats).map Prod.fst :=
    ((List.perm_insertionSort scoreLe (letterScores stats)).map Prod.fst).mem_iff.mp h1
  exact (map_fst_letterScores_sublist stats).subset h2

theorem rank_hardest_ne_nil {stats : Stats} {alphabet : List Char} {count : Nat}
    {sample : Sampler} (hs : ValidSample sample) (hc : 0 < count) (ha : alphabet ≠ []) :
    rank_hardest stats alphabet count sample ≠ [] := by
  rw [rank_hardest]
  by_cases h : (rankedTop stats count).length < count
  · simp only [h, if_pos]
    intro hcon
    rw [List.append_eq_nil] at hcon
    obtain ⟨h1, h2⟩ := hcon
    have hrem : (alphabet.filter fun l => decide (l ∉ rankedTop stats count)) = alphabet :=
      List.filter_eq_self.mpr fun a _ => by rw [h1]; simp
    have hlen0 : (rankedTop stats count).length = 0 := by rw [h1]; rfl
    rw [hrem] at h2
    have hk : min (count - (rankedTop stats count).length) alphabet.length ≤
        alphabet.length := Nat.min_le_right _ _
    have hlen := (hs alphabet _ hk).1
    rw [h2] at hlen
    have hpos : 0 < alphabet.length := List.length_pos.mpr ha
    simp only [List.length_nil] at hlen
    omega
  · simp only [h, if_neg, if_false]
    intro hcon
    have hl0 : (rankedTop stats count).length = 0 := by rw [hcon]; rfl
    omega

theorem question_choices_ok {alphabet : List Char} (current : Char) (sample : Sampler)
    (shuffle : List Char → List Char) (hsample : ValidSample sample)
    (hshuffle : ValidShuffle shuffle) (halpha : alphabet.Nodup)
    (hlen : 4 ≤ alphabet.length) :
    (shuffle (current :: sample (alphabet.erase current) 3)).length = 4 ∧
    (shuffle (current :: sample (alphabet.erase current) 3)).Nodup ∧
    (shuffle (current :: sample (alphabet.erase current) 3)).count current = 1 ∧
    List.indexOf current (shuffle (current :: sample (alphabet.erase current) 3)) < 4 ∧
    (shuffle (current :: sample (alphabet.erase current) 3))[
      List.indexOf current (shuffle (current :: sample (alphabet.erase current) 3))]? =
      some current := by
  have h3 : 3 ≤ (alphabet.erase current).length := by
    rw [List.length_erase]
    by_cases hmem : current ∈ alphabet <;> simp [hmem] <;> omega
  obtain ⟨hwl, hwmem, hwnd⟩ := hsample (alphabet.erase current) 3 h3
  have hrestnd : (alphabet.erase current).Nodup := halpha.erase current
  have hnotin : current ∉ alphabet.erase current := by
    by_cases hmem : current ∈ alphabet
    · exact halpha.not_mem_erase
    · intro hcon
      exact hmem (List.erase_subset _ _ hcon)
  have hperm := hshuffle (current :: sample (alphabet.erase current) 3)
  have hclen : (shuffle (current :: sample (alphabet.erase current) 3)).length = 4 := by
    rw [hperm.length_eq]
    simp [hwl]
  have hnd0 : (current :: sample (alphabet.erase current) 3).Nodup := by
    rw [List.nodup_cons]
    exact ⟨fun hcon => hnotin (hwmem current hcon), hwnd hrestnd⟩
  have hcnd := hperm.nodup_iff.mpr hnd0
  have hmemc : current ∈ shuffle (current :: sample (alphabet.erase current) 3) :=
    hperm.mem_iff.mpr (List.mem_cons_self _ _)
  have hidx : List.indexOf current (shuffle (current :: sample (alphabet.erase current) 3)) <
      (shuffle (current :: sample (alphabet.erase current) 3)).length :=
    List.indexOf_lt_length.mpr hmemc
  refine ⟨hclen, hcnd, ?_, by omega, ?_⟩
  · exact List.count_eq_one_of_mem hcnd hmemc
  · rw [List.getElem?_eq_getElem hidx]
    exact congrArg some (List.indexOf_get hidx)

/-- Claim C3: whatever the outcomes of the question randomness (draw,
target choice, distractor sampling, shuffle), a constructed question has
exactly four pairwise-distinct choices, contains the target exactly once,
and stores the target's position in the shuffled sequence; for both the
letters and the digits screen. -/
theorem new_question_choice_structure :
    (∀ (u : UserProfile) (q : ℚ) (pick : List Char → Char) (sample : Sampler)
        (shuffle : List Char → List Char),
      ValidSample sample → ValidShuffle shuffle →
      (new_question_letters u q pick sample shuffle).choices.length = 4 ∧
      (new_question_letters u q pick sample shuffle).choices.Nodup ∧
      (new_question_letters u q pick sample shuffle).choices.count
        (new_question_letters u q pick sample shuffle).current = 1 ∧
      (new_question_letters u q pick sample shuffle).correct_answer < 4 ∧
      (new_question_letters u q pick sample shuffle).choices[
        (new_question_letters u q pick sample shuffle).correct_answer]? =
        some (new_question_letters u q pick sample shuffle).current) ∧
    (∀ (u : UserProfile) (q : ℚ) (pick : List Char → Char) (n : Fin 10) (sample : Sampler)
        (shuffle : List Char → List Char),
      ValidSample sample → ValidShuffle shuffle →
      (new_question_numbers u q pick n sample shuffle).2.choices.length = 4 ∧
      (new_question_numbers u q pick n sample shuffle).2.choices.Nodup ∧
      (new_question_numbers u q pick n sample shuffle).2.choices.count
        (new_question_numbers u q pick n sample shuffle).2.current = 1 ∧
      (new_question_numbers u q pick n sample shuffle).2.correct_answer < 4 ∧
      (new_question_numbers u q pick n sample shuffle).2.choices[
        (new_question_numbers u q pick n sample shuffle).2.correct_answer]? =
        some (new_question_numbers u q pick n sample shuffle).2.current) := by
  constructor
  · intro u q pick sample shuffle hsample hshuffle
    simp only [new_question_letters]
    exact question_choices_ok _ sample shuffle hsample hshuffle (by decide) (by decide)
  · intro u q pick n sample shuffle hsample hshuffle
    by_cases hq : q < 3 / 5
    · simp only [new_question_numbers, hq, if_pos]
      exact question_choices_ok _ sample shuffle hsample hshuffle (by decide) (by decide)
    · simp only [new_question_numbers, hq, if_neg, if_false]
      exact question_choices_ok _ sample shuffle hsample hshuffle (by decide) (by decide)

/-- Witness for the question-structure theorem at concrete oracles: fresh
profile, draw one half, head choice, prefix sampler, identity shuffle, and
digit draw three. -/
theorem new_question_choice_structure_witness :
    ((new_question_letters (freshProfile "t0") (1 / 2) pickHead takeSampler
        idShuffle).choices.length = 4 ∧
      (new_question_letters (freshProfile "t0") (1 / 2) pickHead takeSampler
        idShuffle).choices.Nodup ∧
      (new_question_letters (freshProfile "t0") (1 / 2) pickHead takeSampler
        idShuffle).choices.count
        (new_question_letters (freshProfile "t0") (1 / 2) pickHead takeSampler
          idShuffle).current = 1 ∧
      (new_question_letters (freshProfile "t0") (1 / 2) pickHead takeSampler
        idShuffle).correct_answer < 4 ∧
      (new_question_letters (freshProfile "t0") (1 / 2) pickHead takeSampler
        idShuffle).choices[
        (new_question_letters (freshProfile "t0") (1 / 2) pickHead takeSampler
          idShuffle).correct_answer]? =
        some (new_question_letters (freshProfile "t0") (1 / 2) pickHead takeSampler
          idShuffle).current) ∧
    ((new_question_numbers (freshProfile "t0") (1 / 2) pickHead 3 takeSampler
        idShuffle).2.choices.length = 4 ∧
      (new_question_numbers (freshProfile "t0") (1 / 2) pickHead 3 takeSampler
        idShuffle).2.choices.Nodup ∧
      (new_question_numbers (freshProfile "t0") (1 / 2) pickHead 3 takeSampler
        idShuffle).2.choices.count
        (new_question_numbers (freshProfile "t0") (1 / 2) pickHead 3 takeSampler
          idShuffle).2.current = 1 ∧
      (new_question_numbers (freshProfile "t0") (1 / 2) pickHead 3 takeSampler
        idShuffle).2.correct_answer < 4 ∧
      (new_question_numbers (freshProfile "t0") (1 / 2) pickHead 3 takeSampler
        idShuffle).2.choices[
        (new_question_numbers (freshProfile "t0") (1 / 2) pickHead 3 takeSampler
          idShuffle).2.correct_answer]? =
        some (new_question_numbers (freshProfile "t0") (1 / 2) pickHead 3 takeSampler
          idShuffle).2.current) :=
  ⟨new_question_choice_structure.1 (freshProfile "t0") (1 / 2) pickHead takeSampler
      idShuffle validSample_takeSampler validShuffle_idShuffle,
    new_question_choice_structure.2 (freshProfile "t0") (1 / 2) pickHead 3 takeSampler
      idShuffle validSample_takeSampler validShuffle_idShuffle⟩

/-- Claim C5: when the initial uniform draw is below three fifths the
target symbol is one of the ten hardest letters (respectively five hardest
digits), and otherwise it is some symbol of the full alphabet (respectively
some digit). -/
theorem new_question_target_policy :
    (∀ (u : UserProfile) (q : ℚ) (pick : List Char → Char) (sample : Sampler)
        (shuffle : List Char → List Char),
      ValidPick pick → ValidSample sample →
      (if q < 3 / 5 then
        (new_question_letters u q pick sample shuffle).current ∈
          get_difficult_letters u 10 sample
       else
        (new_question_letters u q pick sample shuffle).current ∈ lettersList)) ∧
    (∀ (u : UserProfile) (q : ℚ) (pick : List Char → Char) (n : Fin 10) (sample : Sampler)
        (shuffle : List Char → List Char),
      ValidPick pick → ValidSample sample →
      (if q < 3 / 5 then
        (new_question_numbers u q pick n sample shuffle).2.current ∈
          (get_difficult_numbers u 5 sample).2
       else
        (new_question_numbers u q pick n sample shuffle).2.current ∈ digitsList)) := by
  constructor
  · intro u q pick sample shuffle hpick hsample
    by_cases hq : q < 3 / 5
    · simp only [hq, if_pos, new_question_letters]
      exact hpick _ (rank_hardest_ne_nil hsample (by omega) (by decide))
    · simp only [hq, if_neg, if_false, new_question_letters]
      exact hpick lettersList (by decide)
  · intro u q pick n sample shuffle hpick hsample
    by_cases hq : q < 3 / 5
    · simp only [hq, if_pos, new_question_numbers]
      exact hpick _ (rank_hardest_ne_nil hsample (by omega) (by decide))
    · simp only [hq, if_neg, if_false, new_question_numbers]
      revert n
      decide

/-- Witness for the target-policy theorem: the draw one half takes the
hard-symbol branch and the draw nine tenths takes the whole-alphabet
branch, at concrete oracles. -/
theorem new_question_target_policy_witness :
    (if (1 / 2 : ℚ) < 3 / 5 then
      (new_question_letters (freshProfile "t0") (1 / 2) pickHead takeSampler
        idShuffle).current ∈ get_difficult_letters (freshProfile "t0") 10 takeSampler
     else
      (new_question_letters (freshProfile "t0") (1 / 2) pickHead takeSampler
        idShuffle).current ∈ lettersList) ∧
    (if (9 / 10 : ℚ) < 3 / 5 then
      (new_question_numbers (freshProfile "t0") (9 / 10) pickHead 3 takeSampler
        idShuffle).2.current ∈ (get_difficult_numbers (freshProfile "t0") 5 takeSampler).2
     else
      (new_question_numbers (freshProfile "t0") (9 / 10) pickHead 3 takeSampler
        idShuffle).2.current ∈ digitsList) :=
  ⟨new_question_target_policy.1 (freshProfile "t0") (1 / 2) pickHead takeSampler idShuffle
      validPick_pickHead validSample_takeSampler,
    new_question_target_policy.2 (freshProfile "t0") (9 / 10) pickHead 3 takeSampler
      idShuffle validPick_pickHead validSample_takeSampler⟩

/-- Claim C9: asking for difficult digits on a legacy profile without the
digit statistics field does not fail; it installs zero-initialized digit
statistics for all ten digits and zero digit totals, and then returns a
random sample of min(count, 10) distinct digits of the digit alphabet. -/
theorem get_difficult_numbers_legacy_init :
    ∀ (u : UserProfile) (count : Nat) (sample : Sampler),
      u.stats_numbers = none → ValidSample sample →
      (get_difficult_numbers u count sample).1.stats_numbers =
        some (zeroStats digitsList) ∧
      (get_difficult_numbers u count sample).1.total_correct_numbers = some 0 ∧
      (get_difficult_numbers u count sample).1.total_attempts_numbers = some 0 ∧
      (∀ c ∈ digitsList,
        lookupA ((get_difficult_numbers u count sample).1.stats_numbers.getD []) c =
          some { correct := 0, attempts := 0 }) ∧
      (get_difficult_numbers u count sample).2 = sample digitsList (min count 10) ∧
      (get_difficult_numbers u count sample).2.length = min count 10 ∧
      (get_difficult_numbers u count sample).2.Nodup ∧
      (∀ c ∈ (get_difficult_numbers u count sample).2, c ∈ digitsList) := by
  intro u count sample hnone hsample
  have hdef : get_difficult_numbers u count sample =
      ({ u with stats_numbers := some (zeroStats digitsList)
                total_correct_numbers := some 0
                total_attempts_numbers := some 0 },
        rank_hardest (zeroStats digitsList) digitsList count sample) := by
    rw [get_difficult_numbers, hnone]
    rfl
  have h0 : rankedTop (zeroStats digitsList) count = [] := by
    rw [rankedTop, show sortedScores (zeroStats digitsList) = [] from rfl]
    simp
  have hrank : rank_hardest (zeroStats digitsList) digitsList count sample =
      sample digitsList (min count 10) := by
    rw [rank_hardest, h0]
    have hfil : (digitsList.filter fun l => decide (l ∉ ([] : List Char))) = digitsList := by
      decide
    simp only [hfil, List.length_nil, List.nil_append, Nat.sub_zero,
      show digitsList.length = 10 from rfl]
    by_cases hc : 0 < count
    · simp [hc]
    · have hc0 : count = 0 := by omega
      subst hc0
      simp only [Nat.lt_irrefl, if_neg, if_false]
      have hlen := (hsample digitsList 0 (by simp)).1
      simp only [Nat.zero_min]
      exact (List.eq_nil_of_length_eq_zero hlen).symm
  have hk : min count 10 ≤ digitsList.length := by
    rw [show digitsList.length = 10 from rfl]
    exact Nat.min_le_right _ _
  obtain ⟨hlen, hmem, hnd⟩ := hsample digitsList (min count 10) hk
  rw [hdef, hrank]
  refine ⟨rfl, rfl, rfl, ?_, rfl, hlen, hnd (by decide), hmem⟩
  intro c hc
  exact lookupA_zeroStats hc

/-- Witness for the legacy-repair theorem: the concrete legacy profile with
the prefix sampler and count four gets zeroed digit statistics installed
and the first four digits back. -/
theorem get_difficult_numbers_legacy_init_witness :
    (get_difficult_numbers legacyProfile 4 takeSampler).1.stats_numbers =
      some (zeroStats digitsList) ∧
    (get_difficult_numbers legacyProfile 4 takeSampler).1.total_correct_numbers = some 0 ∧
    (get_difficult_numbers legacyProfile 4 takeSampler).1.total_attempts_numbers = some 0 ∧
    (∀ c ∈ digitsList,
      lookupA ((get_difficult_numbers legacyProfile 4 takeSampler).1.stats_numbers.getD []) c =
        some { correct := 0, attempts := 0 }) ∧
    (get_difficult_numbers legacyProfile 4 takeSampler).2 =
      takeSampler digitsList (min 4 10) ∧
    (get_difficult_numbers legacyProfile 4 takeSampler).2.length = min 4 10 ∧
    (get_difficult_numbers legacyProfile 4 takeSampler).2.Nodup ∧
    (∀ c ∈ (get_difficult_numbers legacyProfile 4 takeSampler).2, c ∈ digitsList) :=
  get_difficult_numbers_legacy_init legacyProfile 4 takeSampler rfl validSample_takeSampler

/-! Helper lemmas about the CLI game loop. -/

theorem play_round_fst (st : Nat × List String) (r : String × String) :
    (play_round st r).1 = st.1 + (if r.2 = r.1 then 1 else 0) := by
  rw [play_round]
  by_cases hr : r.2 = r.1 <;> simp [hr]

theorem play_round_snd_nodup {st : Nat × List String} (r : String × String)
    (h : st.2.Nodup) : (play_round st r).2.Nodup := by
  rw [play_round]
  by_cases hr : r.2 = r.1
  · simp only [hr, if_pos]
    by_cases hmem : r.1 ∈ st.2
    · simpa [hmem] using h
    · simp only [hmem, if_neg, if_false]
      rw [List.nodup_append]
      refine ⟨h, List.nodup_singleton _, ?_⟩
      intro x hx hx2
      rw [List.mem_singleton] at hx2
      subst hx2
      exact hmem hx
  · simpa [hr] using h

theorem play_round_snd_mem {st : Nat × List String} {r : String × String} {x : String}
    (h : x ∈ (play_round st r).2) : x ∈ st.2 ∨ (r.2 = r.1 ∧ x = r.2) := by
  rw [play_round] at h
  by_cases hr : r.2 = r.1
  · simp only [hr, if_pos] at h
    by_cases hmem : r.1 ∈ st.2
    · simp only [hmem, if_pos] at h
      exact Or.inl h
    · simp only [hmem, if_neg, if_false] at h
      rcases List.mem_append.mp h with h1 | h1
      · exact Or.inl h1
      · rw [List.mem_singleton] at h1
        exact Or.inr ⟨hr, h1.trans hr.symm⟩
  · simp only [hr, if_neg, if_false] at h
    exact Or.inl h

/-- Claim C10: in the CLI variant's loop, the saved alphabet list stays
duplicate-free, its letters come either from the loaded list or from a
correctly answered round, and the saved score is the loaded score plus the
number of correct answers of the session. -/
theorem characters_session_invariants :
    ∀ (init : Nat × List String) (rounds : List (String × String)),
      (init.2.Nodup → (play_session init rounds).2.Nodup) ∧
      (play_session init rounds).1 =
        init.1 + rounds.countP (fun r => decide (r.2 = r.1)) ∧
      (∀ x ∈ (play_session init rounds).2,
        x ∈ init.2 ∨ ∃ r ∈ rounds, r.2 = r.1 ∧ x = r.2) := by
  intro init rounds
  induction rounds generalizing init with
  | nil => simp [play_session]
  | cons r rs ih =>
    have hstep : play_session init (r :: rs) = play_session (play_round init r) rs := rfl
    obtain ⟨ih1, ih2, ih3⟩ := ih (play_round init r)
    refine ⟨?_, ?_, ?_⟩
    · intro hnd
      rw [hstep]
      exact ih1 (play_round_snd_nodup r hnd)
    · rw [hstep, ih2, play_round_fst, List.countP_cons]
      by_cases hr : r.2 = r.1 <;> (simp [hr]; try omega)
    · intro x hx
      rw [hstep] at hx
      rcases ih3 x hx with h | ⟨r2, hr2, hcorr, hx2⟩
      · rcases play_round_snd_mem h with h1 | ⟨h1, h2⟩
        · exact Or.inl h1
        · exact Or.inr ⟨r, List.mem_cons_self r rs, h1, h2⟩
      · exact Or.inr ⟨r2, List.mem_cons_of_mem r hr2, hcorr, hx2⟩

/-- Witness for the session theorem: starting with one point and the
letter a already known, a session with a right answer on a (again), a
right answer on b, and a wrong answer on c keeps the list duplicate-free
as a, b and saves three points. -/
theorem characters_session_invariants_witness :
    (play_session (1, ["a"]) [("a", "a"), ("b", "b"), ("c", "x")]).2.Nodup ∧
    (play_session (1, ["a"]) [("a", "a"), ("b", "b"), ("c", "x")]).1 =
      1 + [("a", "a"), ("b", "b"), ("c", "x")].countP (fun r => decide (r.2 = r.1)) ∧
    (play_session (1, ["a"]) [("a", "a"), ("b", "b"), ("c", "x")]).2 = ["a", "b"] := by
  have h := characters_session_invariants (1, ["a"]) [("a", "a"), ("b", "b"), ("c", "x")]
  exact ⟨h.1 (by decide), h.2.1, by decide⟩

/-- Counterexample for claim C8 as stated: on a concrete active screen, a
second direct call of the grading handler for the same question is not a
no-op; it changes the state again and leaves the letter attempt total at
two instead of one, because the active flag stays set and only the button
widgets are disabled. -/
theorem check_answer_double_call_counts_twice :
    ((check_answer st0 0).bind fun st1 => check_answer st1 0) ≠ check_answer st0 0 ∧
    (((check_answer st0 0).bind fun st1 => check_answer st1 0).bind
      fun st2 => (lookupA st2.users "Lea").map fun u => u.total_attempts) = some 2 ∧
    ((check_answer st0 0).bind fun st1 =>
      (lookupA st1.users "Lea").map fun u => u.total_attempts) = some 1 := by
  refine ⟨by decide, by decide, by decide⟩

/-- Amended claim C8: a second submission of an answer for the same
question is a no-op at the level the player can reach, because the first
grading call disables every choice button and a click on a disabled button
never invokes the handler; and the handler itself is a no-op whenever the
screen is inactive. -/
theorem answer_submission_single_count :
    (∀ (st st1 : GameScreenState) (idx jdx : Nat),
      click_choice st idx = some st1 → click_choice st1 jdx = some st1) ∧
    (∀ (st : GameScreenState) (idx : Nat), st.is_active = false →
      check_answer st idx = some st) := by
  have hinactive : ∀ (st : GameScreenState) (idx : Nat), st.is_active = false →
      check_answer st idx = some st := by
    intro st idx h
    rw [check_answer]
    simp [h]
  refine ⟨?_, hinactive⟩
  intro st st1 idx jdx h
  rw [click_choice] at h
  by_cases hb : st.buttons_enabled
  · simp only [hb, if_pos] at h
    rw [check_answer] at h
    by_cases hact : st.is_active = false
    · simp only [hact, if_pos] at h
      obtain rfl : st = st1 := Option.some.inj h
      rw [click_choice]
      by_cases hb1 : st.buttons_enabled
      · simp only [hb1, if_pos]
        exact hinactive st jdx hact
      · simp [hb1]
    · simp only [hact, if_neg, if_false] at h
      cases hu : update_stats st.users st.username st.current_letter
          (decide (idx = st.correct_answer)) with
      | none =>
        rw [hu] at h
        exact absurd h (by simp)
      | some users2 =>
        rw [hu] at h
        have h2 := Option.some.inj h
        rw [click_choice, ← h2]
        simp
  · simp only [hb, if_neg, if_false] at h
    obtain rfl : st = st1 := Option.some.inj h
    rw [click_choice]
    simp [hb]

/-- Witness for the amended claim: after the first click graded the demo
question and disabled the buttons, a further click changes nothing, and a
call on an inactivated screen changes nothing. -/
theorem answer_submission_single_count_witness :
    click_choice stAfterA 1 = some stAfterA ∧
    check_answer { st0 with is_active := false } 2 = some { st0 with is_active := false } :=
  ⟨answer_submission_single_count.1 st0 stAfterA 0 1 (by decide),
    answer_submission_single_count.2 { st0 with is_active := false } 2 rfl⟩

/-! Helper lemmas for the JSON printer and parser. -/

theorem toNat_ofNat_valid {n : Nat} (h : n < 55296) : (Char.ofNat n).toNat = n := by
  rw [Char.ofNat, dif_pos (Or.inl h)]
  rfl

theorem skipWs_cons_not {c : Char} (cs : List Char) (h : isWsC c = false) :
    skipWs (c :: cs) = c :: cs := by
  simp [skipWs, List.dropWhile_cons, h]

theorem skipWs_append_ws {w : List Char} (cs : List Char)
    (h : ∀ c ∈ w, isWsC c = true) : skipWs (w ++ cs) = skipWs cs := by
  induction w with
  | nil => rfl
  | cons a w ih =>
    have ha := h a (List.mem_cons_self a w)
    simp only [List.cons_append, skipWs, List.dropWhile_cons, ha, if_pos]
    exact ih fun c hc => h c (List.mem_cons_of_mem a hc)

theorem skipWs_skipWs (cs : List Char) : skipWs (skipWs cs) = skipWs cs := by
  induction cs with
  | nil => rfl
  | cons a cs ih =>
    by_cases ha : isWsC a
    · simp only [skipWs, List.dropWhile_cons, ha, if_pos]
      exact ih
    · have ha2 : isWsC a = false := by simpa using ha
      rw [skipWs_cons_not cs ha2, skipWs_cons_not cs ha2]

theorem parseMembers_skipWs (fuel : Nat) (cs : List Char) :
    parseMembers fuel (skipWs cs) = parseMembers fuel cs := by
  cases fuel with
  | zero => rfl
  | succ fuel =>
    simp only [parseMembers, skipWs_skipWs]

theorem ws_of_indentChars {lvl : Nat} {c : Char} (h : c ∈ indentChars lvl) :
    isWsC c = true := by
  rw [indentChars] at h
  rw [List.eq_of_mem_replicate h]
  decide

theorem not_digit_of_ws {c : Char} (h : isWsC c = true) : isDigitC c = false := by
  have h1 : c = spaceC ∨ c = nlC ∨ c = Char.ofNat 9 ∨ c = Char.ofNat 13 := by
    rw [isWsC] at h
    simp only [Bool.or_eq_true, decide_eq_true_eq] at h
    tauto
  rcases h1 with rfl | rfl | rfl | rfl <;> decide

theorem not_ws_of_digit {c : Char} (h : isDigitC c = true) : isWsC c = false := by
  by_cases hw : isWsC c = true
  · rw [not_digit_of_ws hw] at h
    exact absurd h (by simp)
  · simp at hw
    exact hw

theorem parseHex_hexDigitChar : ∀ n : Nat, n < 16 → parseHex (hexDigitChar n) = some n := by
  decide

theorem parseStringBody_escape_pair {e d : Char} (rest : List Char)
    (hne : e ≠ 'u') (hd : decodeEscape e = some d) :
    parseStringBody (bslashC :: e :: rest) =
      (parseStringBody rest).map fun p => (d :: p.1, p.2) := by
  rw [parseStringBody.eq_def]
  simp only [show ¬ bslashC = qmarkC from by decide, if_neg, if_false, hne, hd,
    show bslashC = bslashC from rfl, if_pos, if_true]
  cases hp : parseStringBody rest with
  | none => simp [hp]
  | some p => simp [hp]

theorem parseStringBody_escape (c : Char) (rest : List Char) :
    parseStringBody (escapeChar c ++ rest) =
      (parseStringBody rest).map fun p => (c :: p.1, p.2) := by
  rw [escapeChar]
  by_cases h1 : c = qmarkC
  · subst h1
    rw [if_pos rfl]
    exact parseStringBody_escape_pair rest (by decide) (by decide)
  · rw [if_neg h1]
    by_cases h2 : c = bslashC
    · subst h2
      rw [if_pos rfl]
      exact parseStringBody_escape_pair rest (by decide) (by decide)
    · rw [if_neg h2]
      by_cases h3 : c = Char.ofNat 8
      · subst h3
        rw [if_pos rfl]
        exact parseStringBody_escape_pair rest (by decide) (by decide)
      · rw [if_neg h3]
        by_cases h4 : c = Char.ofNat 9
        · subst h4
          rw [if_pos rfl]
          exact parseStringBody_escape_pair rest (by decide) (by decide)
        · rw [if_neg h4]
          by_cases h5 : c = Char.ofNat 10
          · subst h5
            rw [if_pos rfl]
            exact parseStringBody_escape_pair rest (by decide) (by decide)
          · rw [if_neg h5]
            by_cases h6 : c = Char.ofNat 12
            · subst h6
              rw [if_pos rfl]
              exact parseStringBody_escape_pair rest (by decide) (by decide)
            · rw [if_neg h6]
              by_cases h7 : c = Char.ofNat 13
              · subst h7
                rw [if_pos rfl]
                exact parseStringBody_escape_pair rest (by decide) (by decide)
              · rw [if_neg h7]
                by_cases h8 : c.toNat < 32
                · rw [if_pos h8]
                  show parseStringBody (bslashC :: 'u' :: '0' :: '0' ::
                      hexDigitChar (c.toNat / 16) :: hexDigitChar (c.toNat % 16) :: rest) = _
                  rw [parseStringBody.eq_def]
                  simp only [show ¬ bslashC = qmarkC from by decide, if_neg, if_false,
                    show ('u' : Char) = 'u' from rfl, if_pos, if_true,
                    show parseHex '0' = some 0 from by decide,
                    parseHex_hexDigitChar (c.toNat / 16) (by omega),
                    parseHex_hexDigitChar (c.toNat % 16) (by omega)]
                  rw [show ((0 * 16 + 0) * 16 + c.toNat / 16) * 16 + c.toNat % 16 = c.toNat
                      from by omega, Char.ofNat_toNat]
                  cases hp : parseStringBody rest with
                  | none => simp [hp]
                  | some p => simp [hp]
                · rw [if_neg h8]
                  show parseStringBody (c :: rest) = _
                  rw [parseStringBody.eq_def]
                  simp only [h1, h2, h8, if_neg, if_false]
                  cases hp : parseStringBody rest with
                  | none => simp [hp]
                  | some p => simp [hp]

theorem parseStringBody_print (s : List Char) (rest : List Char) :
    parseStringBody ((s.map escapeChar).flatten ++ (qmarkC :: rest)) = some (s, rest) := by
  induction s with
  | nil =>
    simp only [List.map_nil, List.flatten_nil, List.nil_append]
    rw [parseStringBody.eq_def]
    simp
  | cons c cs ih =>
    simp only [List.map_cons, List.flatten_cons, List.append_assoc]
    rw [parseStringBody_escape, ih]
    rfl

theorem digitC_toNat {n : Nat} (h : n < 10) : (digitC n).toNat = 48 + n :=
  toNat_ofNat_valid (by omega)

theorem isDigitC_digitC {k : Nat} (hk : k < 10) : isDigitC (digitC k) = true := by
  rw [isDigitC, digitC_toNat hk]
  simp only [Bool.and_eq_true, decide_eq_true_eq]
  omega

theorem natToDigits_digits : ∀ n : Nat, ∀ c ∈ natToDigits n, ∃ k, k < 10 ∧ c = digitC k := by
  intro n
  induction n using Nat.strong_induction_on with
  | _ n ih =>
    intro c hc
    by_cases h : n < 10
    · rw [natToDigits, if_pos h] at hc
      rw [List.mem_singleton] at hc
      exact ⟨n, h, hc⟩
    · rw [natToDigits, if_neg h] at hc
      rcases List.mem_append.mp hc with h1 | h1
      · exact ih (n / 10) (Nat.div_lt_self (by omega) (by omega)) c h1
      · rw [List.mem_singleton] at h1
        exact ⟨n % 10, Nat.mod_lt n (by omega), h1⟩

theorem foldl_natToDigits : ∀ n acc : Nat,
    (natToDigits n).foldl (fun a c => a * 10 + (c.toNat - 48)) acc =
      acc * 10 ^ (natToDigits n).length + n := by
  intro n
  induction n using Nat.strong_induction_on with
  | _ n ih =>
    intro acc
    by_cases h : n < 10
    · rw [natToDigits, if_pos h]
      simp only [List.foldl_cons, List.foldl_nil, List.length_singleton, pow_one,
        digitC_toNat h]
      omega
    · rw [natToDigits, if_neg h]
      rw [List.foldl_append, List.length_append]
      rw [ih (n / 10) (Nat.div_lt_self (by omega) (by omega)) acc]
      simp only [List.foldl_cons, List.foldl_nil, List.length_singleton,
        digitC_toNat (Nat.mod_lt n (by omega)), pow_succ]
      rw [show 48 + n % 10 - 48 = n % 10 from by omega]
      rw [show (acc * 10 ^ (natToDigits (n / 10)).length + n / 10) * 10 + n % 10 =
          acc * (10 ^ (natToDigits (n / 10)).length * 10) + (n / 10 * 10 + n % 10) from by
        ring]
      omega

theorem natToDigits_cons : ∀ n : Nat, ∃ k ds, natToDigits n = digitC k :: ds ∧ k < 10 := by
  intro n
  induction n using Nat.strong_induction_on with
  | _ n ih =>
    by_cases h : n < 10
    · exact ⟨n, [], by rw [natToDigits, if_pos h], h⟩
    · obtain ⟨k, ds, hk, hk10⟩ := ih (n / 10) (Nat.div_lt_self (by omega) (by omega))
      exact ⟨k, ds ++ [digitC (n % 10)], by rw [natToDigits, if_neg h, hk]; rfl, hk10⟩

theorem parseDigitsAcc_append (ds : List Char) (rest : List Char)
    (h : ∀ c ∈ ds, ∃ k, k < 10 ∧ c = digitC k)
    (hrest : ∀ c cs2, rest = c :: cs2 → isDigitC c = false) :
    ∀ acc : Nat, parseDigitsAcc (ds ++ rest) acc =
      (ds.foldl (fun a c => a * 10 + (c.toNat - 48)) acc, rest) := by
  induction ds with
  | nil =>
    intro acc
    simp only [List.nil_append, List.foldl_nil]
    cases rest with
    | nil => rfl
    | cons r rs =>
      have hd := hrest r rs rfl
      simp [parseDigitsAcc, hd]
  | cons d ds2 ih =>
    intro acc
    obtain ⟨k, hk, rfl⟩ := h d (List.mem_cons_self d ds2)
    simp only [List.cons_append, List.foldl_cons]
    rw [show parseDigitsAcc (digitC k :: (ds2 ++ rest)) acc =
        parseDigitsAcc (ds2 ++ rest) (acc * 10 + ((digitC k).toNat - 48)) from by
      simp [parseDigitsAcc, isDigitC_digitC hk]]
    exact ih (fun c hc => h c (List.mem_cons_of_mem _ hc)) _

theorem parseNum_print (n : Nat) (rest : List Char)
    (hrest : ∀ c cs2, rest = c :: cs2 → isDigitC c = false) :
    ∃ (k : Nat) (tl : List Char),
      natToDigits n ++ rest = digitC k :: (tl ++ rest) ∧ k < 10 ∧
      parseDigitsAcc (tl ++ rest) ((digitC k).toNat - 48) = (n, rest) := by
  obtain ⟨k, ds, hnd, hk⟩ := natToDigits_cons n
  refine ⟨k, ds, by rw [hnd]; rfl, hk, ?_⟩
  have hds : ∀ c ∈ ds, ∃ j, j < 10 ∧ c = digitC j := fun c hc =>
    natToDigits_digits n c (by rw [hnd]; exact List.mem_cons_of_mem _ hc)
  rw [parseDigitsAcc_append ds rest hds hrest]
  have hfold := foldl_natToDigits n 0
  rw [hnd] at hfold
  simp only [List.foldl_cons, Nat.zero_mul, Nat.zero_add, digitC_toNat hk] at hfold
  rw [show 48 + k - 48 = k from by omega] at hfold
  rw [digitC_toNat hk, show 48 + k - 48 = k from by omega, hfold]

theorem parseVal_skipWs (fuel : Nat) (cs : List Char) :
    parseVal fuel (skipWs cs) = parseVal fuel cs := by
  cases fuel with
  | zero => rfl
  | succ fuel => simp only [parseVal, skipWs_skipWs, parseMembers_skipWs]

theorem parseVal_qmark (fuel : Nat) (cs : List Char) :
    parseVal (fuel + 1) (qmarkC :: cs) =
      match parseStringBody cs with
      | some (chars, r) => some (.str (String.mk chars), r)
      | none => none := by
  simp only [parseVal, @skipWs_cons_not qmarkC cs (by decide), if_pos rfl, if_true]

theorem parseVal_digit (fuel : Nat) (c : Char) (cs : List Char) (hd : isDigitC c = true)
    (h1 : ¬ c = qmarkC) (h2 : ¬ c = lbraceC) :
    parseVal (fuel + 1) (c :: cs) =
      some (.num (parseDigitsAcc cs (c.toNat - 48)).1, (parseDigitsAcc cs (c.toNat - 48)).2) := by
  simp only [parseVal, skipWs_cons_not cs (not_ws_of_digit hd), if_neg h1, if_neg h2, hd,
    if_pos, if_true]

theorem parseVal_lbrace (fuel : Nat) (cs : List Char) :
    parseVal (fuel + 1) (lbraceC :: cs) =
      match skipWs cs with
      | [] => none
      | c2 :: rest2 =>
        if c2 = rbraceC then some (.obj [], rest2)
        else
          match parseMembers fuel cs with
          | some (fields, r) => some (.obj fields, r)
          | none => none := by
  simp only [parseVal, @skipWs_cons_not lbraceC cs (by decide),
    if_neg (show ¬ lbraceC = qmarkC from by decide), if_pos rfl, if_true]

theorem parseMembers_qmark (fuel : Nat) (cs : List Char) :
    parseMembers (fuel + 1) (qmarkC :: cs) =
      match parseStringBody cs with
      | none => none
      | some (key, rest2) =>
        match skipWs rest2 with
        | [] => none
        | c3 :: rest3 =>
          if c3 = colonC then
            match parseVal fuel rest3 with
            | none => none
            | some (v, rest4) =>
              match skipWs rest4 with
              | [] => none
              | c5 :: rest5 =>
                if c5 = commaC then
                  match parseMembers fuel rest5 with
                  | some (fields, r) => some ((String.mk key, v) :: fields, r)
                  | none => none
                else if c5 = rbraceC then some ([(String.mk key, v)], rest5)
                else none
          else none := by
  simp only [parseMembers, @skipWs_cons_not qmarkC cs (by decide), if_pos rfl, if_true]

theorem printMembers_shape (lvl : Nat) (f : String × JVal) (fs : List (String × JVal)) :
    ∃ tl, printMembers lvl f fs = indentChars lvl ++ (qmarkC :: tl) := by
  obtain ⟨k, v⟩ := f
  cases fs with
  | nil =>
    refine ⟨((k.data.map escapeChar).flatten ++ [qmarkC]) ++
      (colonC :: spaceC :: printVal lvl v), ?_⟩
    simp only [printMembers, printString, List.cons_append, List.append_assoc]
  | cons f2 fs2 =>
    refine ⟨((k.data.map escapeChar).flatten ++ [qmarkC]) ++
      ((colonC :: spaceC :: printVal lvl v) ++
        (commaC :: nlC :: printMembers lvl f2 fs2)), ?_⟩
    simp only [printMembers, printString, List.cons_append, List.append_assoc]

theorem head_not_digit_ws_rbrace (w2 rest : List Char) (hw2 : ∀ c ∈ w2, isWsC c = true) :
    ∀ c cs2, (w2 ++ rbraceC :: rest) = c :: cs2 → isDigitC c = false := by
  intro c cs2 heq
  cases w2 with
  | nil =>
    rw [List.nil_append] at heq
    injection heq with h1 _
    rw [← h1]
    decide
  | cons a w2b =>
    rw [List.cons_append] at heq
    injection heq with h1 _
    rw [← h1]
    exact not_digit_of_ws (hw2 a (List.mem_cons_self a w2b))

theorem parse_print_aux : ∀ fuel : Nat,
    (∀ (v : JVal) (lvl : Nat) (w rest : List Char),
      (∀ c ∈ w, isWsC c = true) →
      (∀ c cs2, rest = c :: cs2 → isDigitC c = false) →
      (w ++ (printVal lvl v ++ rest)).length < fuel →
      parseVal fuel (w ++ (printVal lvl v ++ rest)) = some (v, rest)) ∧
    (∀ (f : String × JVal) (fs : List (String × JVal)) (lvl : Nat) (w w2 rest : List Char),
      (∀ c ∈ w, isWsC c = true) →
      (∀ c ∈ w2, isWsC c = true) →
      (w ++ (printMembers lvl f fs ++ (w2 ++ rbraceC :: rest))).length < fuel →
      parseMembers fuel (w ++ (printMembers lvl f fs ++ (w2 ++ rbraceC :: rest))) =
        some (f :: fs, rest)) := by
  intro fuel
  induction fuel using Nat.strong_induction_on with
  | _ fuel ih =>
    cases fuel with
    | zero =>
      constructor
      · intro v lvl w rest _ _ hlen
        exact absurd hlen (Nat.not_lt_zero _)
      · intro f fs lvl w w2 rest _ _ hlen
        exact absurd hlen (Nat.not_lt_zero _)
    | succ fuel =>
      constructor
      · intro v lvl w rest hw hrest hlen
        rw [← parseVal_skipWs]
        cases v with
        | str s =>
          obtain ⟨sd⟩ := s
          have hpv : printVal lvl (JVal.str ⟨sd⟩) =
              qmarkC :: ((sd.map escapeChar).flatten ++ [qmarkC]) := by
            simp only [printVal, printString]
          rw [hpv]
          rw [show (qmarkC :: ((sd.map escapeChar).flatten ++ [qmarkC])) ++ rest =
              qmarkC :: ((sd.map escapeChar).flatten ++ (qmarkC :: rest)) from by simp]
          rw [skipWs_append_ws _ hw, @skipWs_cons_not qmarkC _ (by decide)]
          rw [parseVal_qmark]
          simp only [parseStringBody_print]
        | num n =>
          obtain ⟨k, tl, hsplit, hk, hpd⟩ := parseNum_print n rest hrest
          have hpv : printVal lvl (JVal.num n) = natToDigits n := by
            simp only [printVal]
          rw [hpv, hsplit]
          rw [skipWs_append_ws _ hw,
            @skipWs_cons_not (digitC k) _ (not_ws_of_digit (isDigitC_digitC hk))]
          have h1 : ¬ digitC k = qmarkC := by
            intro hq
            have h2 := congrArg Char.toNat hq
            rw [digitC_toNat hk, show qmarkC.toNat = 34 from by decide] at h2
            omega
          have h2 : ¬ digitC k = lbraceC := by
            intro hq
            have h3 := congrArg Char.toNat hq
            rw [digitC_toNat hk, show lbraceC.toNat = 123 from by decide] at h3
            omega
          rw [parseVal_digit fuel (digitC k) (tl ++ rest) (isDigitC_digitC hk) h1 h2, hpd]
        | obj fields =>
          cases fields with
          | nil =>
            have hpv : printVal lvl (JVal.obj []) = [lbraceC, rbraceC] := by
              simp only [printVal]
            rw [hpv]
            rw [show ([lbraceC, rbraceC] : List Char) ++ rest =
                lbraceC :: (rbraceC :: rest) from rfl]
            rw [skipWs_append_ws _ hw, @skipWs_cons_not lbraceC _ (by decide)]
            rw [parseVal_lbrace]
            simp only [@skipWs_cons_not rbraceC rest (by decide), if_pos rfl, if_true]
          | cons f fs =>
            have hpv : printVal lvl (JVal.obj (f :: fs)) =
                lbraceC :: nlC :: (printMembers (lvl + 1) f fs ++
                  (nlC :: (indentChars lvl ++ [rbraceC]))) := by
              simp only [printVal]
            rw [hpv] at hlen ⊢
            rw [show (lbraceC :: nlC :: (printMembers (lvl + 1) f fs ++
                (nlC :: (indentChars lvl ++ [rbraceC])))) ++ rest =
                lbraceC :: (nlC :: (printMembers (lvl + 1) f fs ++
                  (nlC :: (indentChars lvl ++ (rbraceC :: rest))))) from by simp]
            rw [skipWs_append_ws _ hw, @skipWs_cons_not lbraceC _ (by decide)]
            rw [parseVal_lbrace]
            obtain ⟨tl, hpm⟩ := printMembers_shape (lvl + 1) f fs
            have hwsnl : ∀ c ∈ nlC :: indentChars (lvl + 1), isWsC c = true := by
              intro c hc
              rcases List.mem_cons.mp hc with rfl | hc2
              · decide
              · exact ws_of_indentChars hc2
            have hskip : skipWs (nlC :: (printMembers (lvl + 1) f fs ++
                (nlC :: (indentChars lvl ++ (rbraceC :: rest))))) =
                qmarkC :: (tl ++ (nlC :: (indentChars lvl ++ (rbraceC :: rest)))) := by
              rw [hpm]
              rw [show nlC :: ((indentChars (lvl + 1) ++ (qmarkC :: tl)) ++
                  (nlC :: (indentChars lvl ++ (rbraceC :: rest)))) =
                  (nlC :: indentChars (lvl + 1)) ++ (qmarkC ::
                    (tl ++ (nlC :: (indentChars lvl ++ (rbraceC :: rest))))) from by simp]
              rw [skipWs_append_ws _ hwsnl, @skipWs_cons_not qmarkC _ (by decide)]
            have hwsnl2 : ∀ c ∈ nlC :: indentChars lvl, isWsC c = true := by
              intro c hc
              rcases List.mem_cons.mp hc with rfl | hc2
              · decide
              · exact ws_of_indentChars hc2
            have hM := (ih fuel (Nat.lt_succ_self fuel)).2 f fs (lvl + 1) [nlC]
              (nlC :: indentChars lvl) rest
              (by intro c hc; rw [List.mem_singleton] at hc; rw [hc]; decide)
              hwsnl2
              (by
                simp only [List.length_append, List.length_cons,
                  List.singleton_append] at hlen ⊢
                omega)
            rw [show [nlC] ++ (printMembers (lvl + 1) f fs ++
                ((nlC :: indentChars lvl) ++ (rbraceC :: rest))) =
                nlC :: (printMembers (lvl + 1) f fs ++
                  (nlC :: (indentChars lvl ++ (rbraceC :: rest)))) from by simp] at hM
            simp only [hskip, hM, if_neg (show ¬ qmarkC = rbraceC from by decide)]
      · intro f fs lvl w w2 rest hw hw2 hlen
        obtain ⟨k, v⟩ := f
        obtain ⟨kd⟩ := k
        rw [← parseMembers_skipWs]
        have hwsind : ∀ c ∈ indentChars lvl, isWsC c = true := fun c hc =>
          ws_of_indentChars hc
        cases fs with
        | nil =>
          have hpm : printMembers lvl (⟨kd⟩, v) [] = indentChars lvl ++
              (qmarkC :: ((kd.map escapeChar).flatten ++
                (qmarkC :: (colonC :: (spaceC :: printVal lvl v))))) := by
            simp only [printMembers, printString, List.cons_append, List.append_assoc,
              List.singleton_append, List.nil_append]
          rw [hpm] at hlen ⊢
          rw [show w ++ ((indentChars lvl ++
              (qmarkC :: ((kd.map escapeChar).flatten ++
                (qmarkC :: (colonC :: (spaceC :: printVal lvl v)))))) ++
              (w2 ++ (rbraceC :: rest))) =
              w ++ (indentChars lvl ++ (qmarkC :: ((kd.map escapeChar).flatten ++
                (qmarkC :: (colonC :: (spaceC :: (printVal lvl v ++
                  (w2 ++ (rbraceC :: rest))))))))) from by simp]
          rw [skipWs_append_ws _ hw, skipWs_append_ws _ hwsind,
            @skipWs_cons_not qmarkC _ (by decide)]
          rw [parseMembers_qmark]
          have hS := (ih fuel (Nat.lt_succ_self fuel)).1 v lvl [spaceC]
            (w2 ++ (rbraceC :: rest))
            (by intro c hc; rw [List.mem_singleton] at hc; rw [hc]; decide)
            (head_not_digit_ws_rbrace w2 rest hw2)
            (by
              simp only [List.length_append, List.length_cons,
                List.singleton_append] at hlen ⊢
              omega)
          rw [List.singleton_append] at hS
          have hskipw2 : skipWs (w2 ++ (rbraceC :: rest)) = rbraceC :: rest := by
            rw [skipWs_append_ws _ hw2, @skipWs_cons_not rbraceC _ (by decide)]
          simp only [parseStringBody_print,
            @skipWs_cons_not colonC (spaceC :: (printVal lvl v ++ (w2 ++ (rbraceC :: rest))))
              (by decide),
            if_pos rfl, if_true, hS, hskipw2,
            if_neg (show ¬ rbraceC = commaC from by decide)]
        | cons f2 fs2 =>
          have hpm : printMembers lvl (⟨kd⟩, v) (f2 :: fs2) = indentChars lvl ++
              (qmarkC :: ((kd.map escapeChar).flatten ++
                (qmarkC :: (colonC :: (spaceC :: (printVal lvl v ++
                  (commaC :: (nlC :: printMembers lvl f2 fs2)))))))) := by
            simp only [printMembers, printString, List.cons_append, List.append_assoc,
              List.singleton_append, List.nil_append]
          rw [hpm] at hlen ⊢
          rw [show w ++ ((indentChars lvl ++
              (qmarkC :: ((kd.map escapeChar).flatten ++
                (qmarkC :: (colonC :: (spaceC :: (printVal lvl v ++
                  (commaC :: (nlC :: printMembers lvl f2 fs2))))))))) ++
              (w2 ++ (rbraceC :: rest))) =
              w ++ (indentChars lvl ++ (qmarkC :: ((kd.map escapeChar).flatten ++
                (qmarkC :: (colonC :: (spaceC :: (printVal lvl v ++
                  (commaC :: (nlC :: (printMembers lvl f2 fs2 ++
                    (w2 ++ (rbraceC :: rest)))))))))))) from by simp]
          rw [skipWs_append_ws _ hw, skipWs_append_ws _ hwsind,
            @skipWs_cons_not qmarkC _ (by decide)]
          rw [parseMembers_qmark]
          have hS := (ih fuel (Nat.lt_succ_self fuel)).1 v lvl [spaceC]
            (commaC :: (nlC :: (printMembers lvl f2 fs2 ++ (w2 ++ (rbraceC :: rest)))))
            (by intro c hc; rw [List.mem_singleton] at hc; rw [hc]; decide)
            (by intro c cs2 heq; injection heq with hh1 _; rw [← hh1]; decide)
            (by
              simp only [List.length_append, List.length_cons,
                List.singleton_append] at hlen ⊢
              omega)
          rw [List.singleton_append] at hS
          have hM := (ih fuel (Nat.lt_succ_self fuel)).2 f2 fs2 lvl [nlC] w2 rest
            (by intro c hc; rw [List.mem_singleton] at hc; rw [hc]; decide)
            hw2
            (by
              simp only [List.length_append, List.length_cons,
                List.singleton_append] at hlen ⊢
              omega)
          rw [List.singleton_append] at hM
          simp only [parseStringBody_print,
            @skipWs_cons_not colonC (spaceC :: (printVal lvl v ++
              (commaC :: (nlC :: (printMembers lvl f2 fs2 ++ (w2 ++ (rbraceC :: rest)))))))
              (by decide),
            if_pos rfl, if_true, hS,
            @skipWs_cons_not commaC (nlC :: (printMembers lvl f2 fs2 ++
              (w2 ++ (rbraceC :: rest)))) (by decide),
            hM]

/-- Claim C6: saving any data tree of the persisted JSON fragment and
loading the resulting file contents reproduces the identical tree; in
particular a whole encoded profile collection, with every user, every
per-symbol count and every aggregate total, round-trips unchanged. -/
theorem save_load_round_trip :
    (∀ v : JVal, load_data (some (save_data_sync v)) = some v) ∧
    (∀ users : Users, load_data (some (save_data_sync (encodeCollection users))) =
      some (encodeCollection users)) := by
  have hmain : ∀ v : JVal, load_data (some (save_data_sync v)) = some v := by
    intro v
    simp only [load_data, save_data_sync, json_dumps, json_loads]
    have h := (parse_print_aux ((printVal 0 v).length + 1)).1 v 0 [] []
      (by intro c hc; exact absurd hc (List.not_mem_nil c))
      (by intro c cs2 heq; exact absurd heq (by simp))
      (by simp)
    simp only [List.nil_append, List.append_nil] at h
    rw [h]
    rfl
  exact ⟨hmain, fun users => hmain (encodeCollection users)⟩
